import Mathlib

/-!
Verification of the bundle / transaction / address core of the giota
library.  The trinary codec, the Kerl and Curl sponges and the Winternitz
signing primitives live in packages that are not part of the sources at
hand; the trinary operations are modelled from the specification (§4.1,
§8) and the sponge/signing primitives are abstracted into an explicit
environment, so every theorem below holds for any realisation of them.
-/

namespace Giota

/-- A trit is an integer in {-1, 0, 1}. -/
def isTrit (t : Int) : Prop := t = -1 ∨ t = 0 ∨ t = 1

instance (t : Int) : Decidable (isTrit t) := by
  unfold isTrit; infer_instance

/-- Trit sequences, little-endian balanced ternary. -/
abbrev Trits := List Int

/-- Tryte sequences; character set `[9A-Z]`. -/
abbrev Trytes := List Char

/-- Modelled from the spec: a character is a valid tryte iff it is `9`
or an uppercase letter `A`..`Z` (§3). -/
def isValidTryte (c : Char) : Bool :=
  c = '9' || ('A' ≤ c && c ≤ 'Z')

/-- Modelled from the spec: the signed value in [-13, 13] of a tryte
character; `9↦0`, `A..M ↦ 1..13`, `N..Z ↦ -13..-1` (§3). -/
def tryteValue (c : Char) : Int :=
  if c = '9' then 0
  else
    let k : Int := Int.ofNat c.toNat - 64
    if k ≤ 13 then k else k - 27

/-- Modelled from the spec: the tryte character of a signed value in
[-13, 13] (§3). -/
def valueToTryte (v : Int) : Char :=
  if v = 0 then '9'
  else if v > 0 then Char.ofNat (64 + v).toNat
  else Char.ofNat (64 + (v + 27)).toNat

/-- The balanced remainder of `n` modulo 3, in {-1, 0, 1}. -/
def balDigit (n : Int) : Int :=
  let r := n % 3
  if r = 2 then -1 else r

/-- Modelled from the spec: `int_to_trits(n, width)` — balanced-ternary
encoding of `n`, little-endian, exactly `width` trits (§4.1). -/
def intToTrits (n : Int) : Nat → Trits
  | 0 => []
  | w + 1 =>
    let d := balDigit n
    d :: intToTrits ((n - d) / 3) w

/-- Modelled from the spec: `trits_to_int(t)` — little-endian balanced
ternary to integer (§4.1). -/
def tritsToInt (t : Trits) : Int :=
  t.foldr (fun d acc => d + 3 * acc) 0

/-- Modelled from the spec: the three little-endian trits of one tryte
character (§3). -/
def tryteToTrits (c : Char) : Trits :=
  intToTrits (tryteValue c) 3

/-- Modelled from the spec: `trytes_to_trits` — character `i` maps to the
three trits at position `3i` (§4.1). -/
def trytesToTrits (t : Trytes) : Trits :=
  t.flatMap tryteToTrits

/-- Modelled from the spec: `trits_to_trytes` — inverse chunked
conversion; a trailing group shorter than 3 trits is dropped (§4.1). -/
def tritsToTrytes : Trits → Trytes
  | a :: b :: c :: rest => valueToTryte (a + 3 * b + 9 * c) :: tritsToTrytes rest
  | _ => []

/-- Modelled from the spec: `increment_trits_in_place` — adds 1 in
balanced ternary with carry; wraps at the trit boundary (§4.1). -/
def incTrits : Trits → Trits
  | [] => []
  | t :: rest => if t = 1 then -1 :: incTrits rest else (t + 1) :: rest

/-- Modelled from the spec: `Pad` — pad trytes with `9` up to `n`
characters (§4.6, used by `Finalize`). -/
def padTrytes (t : Trytes) (n : Nat) : Trytes :=
  t ++ List.replicate (n - t.length) '9'

/-- Modelled from the spec: `utils.IsEmptyTrytes` — an empty signature
message fragment is one consisting solely of `9`s (§4.6). -/
def isEmptyTrytes (t : Trytes) : Bool :=
  t.all (fun c => c = '9')

/-- Modelled from the spec: trailing-zero count of a trit sequence,
counting zero trits from the end (§4.5). -/
def leadingZeroCount : Trits → Nat
  | [] => 0
  | t :: rest => if t = 0 then leadingZeroCount rest + 1 else 0

/-- Modelled from the spec: `trailing_zeros` of a trit sequence (§4.5). -/
def trailingZeros (t : Trits) : Int :=
  Int.ofNat (leadingZeroCount t.reverse)

/-- The semantics of Go's `copy(buf[off:], src)` on a value buffer:
`min src.length (buf.length - off)` elements of `src` replace the
elements of `buf` starting at position `off`. -/
def copyAt (buf : List α) (off : Nat) (src : List α) : List α :=
  let k := min src.length (buf.length - off)
  buf.take off ++ src.take k ++ buf.drop (off + k)

/-- Decrement the first entry of a chunk that is greater than -13
(one borrow step of the normalization procedure). -/
def adjustDown : List Int → List Int
  | [] => []
  | x :: r => if x > -13 then (x - 1) :: r else x :: adjustDown r

/-- Increment the first entry of a chunk that is less than 13
(one carry step of the normalization procedure). -/
def adjustUp : List Int → List Int
  | [] => []
  | x :: r => if x < 13 then (x + 1) :: r else x :: adjustUp r

/-- One 27-entry chunk of the normalization: repeatedly borrow/carry
until the chunk sum is zero (§4.1); the fuel bounds the adjustment
steps (27·26 suffices for any chunk of values in [-13,13]). -/
def normalizeChunk : Nat → List Int → List Int
  | 0, c => c
  | fuel + 1, c =>
    let s := c.sum
    if s > 0 then normalizeChunk fuel (adjustDown c)
    else if s < 0 then normalizeChunk fuel (adjustUp c)
    else c

/-- Modelled from the spec: `normalize(hash)` — convert each tryte of an
81-tryte hash to its signed value in [-13,13], then enforce a zero sum
per 27-tryte chunk by borrowing/carrying within the chunk (§4.1). -/
def normalize (h : Trytes) : List Int :=
  let v := h.map tryteValue
  normalizeChunk 702 (v.take 27) ++
    normalizeChunk 702 ((v.drop 27).take 27) ++
    normalizeChunk 702 (v.drop 54)

/-- Modelled from the spec: the Kerl sponge (§4.3), the Curl-P-81 sponge
(§4.2) and the Winternitz signing primitives (§4.4) live in the `kerl`,
`curl` and `signing` packages, which are not among the sources.  They are
abstracted here: `kerlHash` is absorb-of-a-whole-buffer followed by a
243-trit squeeze (absorbing consecutive blocks equals absorbing their
concatenation), `curlHash` is `curl.Hash` on a transaction's trytes,
`sign` is `signing.Sign` on a 27-entry normalized-hash chunk and a
2187-tryte key fragment, `isValidSig` is `signing.IsValidSig`, and
`newAddress` / `newKey` are `signing.NewAddress` / `signing.NewKey` on a
seed, key index and security level.  Every theorem below holds for any
environment. -/
structure CryptoEnv where
  kerlHash : Trits → Trits
  kerlHash_length : ∀ t, (kerlHash t).length = 243
  curlHash : Trytes → Trytes
  sign : List Int → Trytes → Trytes
  isValidSig : Trytes → List Trytes → Trytes → Bool
  newAddress : Trytes → Int → Int → Trytes
  newKey : Trytes → Int → Int → Trytes

/-- Error kinds of `src/address.go`. -/
inductive AddrError where
  | invalidAddressLength
  | invalidTryte
  | invalidChecksum
deriving DecidableEq, Repr

/-- `Address.IsValid` of `src/address.go`: exactly 81 trytes over the
tryte alphabet. -/
def AddressIsValid (a : Trytes) : Except AddrError Unit :=
  if a.length = 81 then
    if a.all isValidTryte then .ok () else .error .invalidTryte
  else .error .invalidAddressLength

/-- `Address.ChecksumHash` of `src/address.go`: the 81-tryte Kerl hash of
the address. -/
def ChecksumHash (E : CryptoEnv) (a : Trytes) : Trytes :=
  tritsToTrytes (E.kerlHash (trytesToTrits a))

/-- `Address.Checksum` of `src/address.go`: trytes 72..81 of the checksum
hash; addresses that are not 81 trytes long are rejected. -/
def Checksum (E : CryptoEnv) (a : Trytes) : Except AddrError Trytes :=
  if a.length ≠ 81 then .error .invalidAddressLength
  else
    ((ChecksumHash E a).drop 72).take 9 |> .ok

/-- `Address.WithChecksum` of `src/address.go`: the address followed by
its 9-tryte checksum. -/
def WithChecksum (E : CryptoEnv) (a : Trytes) : Except AddrError Trytes :=
  if a.length ≠ 81 then .error .invalidAddressLength
  else
    match Checksum E a with
    | .error e => .error e
    | .ok cu => .ok (a ++ cu)

/-- `Address.IsValidChecksum` of `src/address.go`. -/
def IsValidChecksum (E : CryptoEnv) (a checksum : Trytes) : Except AddrError Unit :=
  match Checksum E a with
  | .error e => .error e
  | .ok cu => if cu = checksum then .ok () else .error .invalidChecksum

/-- `Trytes.ToAddress` of `src/address.go` (also `signing.ToAddress`,
which the transaction code calls): a 90-tryte input is stripped to its
first 81 trytes before validation.  Note that the source re-binds `t` to
the stripped value, so the `len(t) == 90` checksum branch tests the
stripped length and can never fire; it is reproduced verbatim. -/
def ToAddress (E : CryptoEnv) (t : Trytes) : Except AddrError Trytes :=
  let t' := if t.length = 90 then t.take 81 else t
  match AddressIsValid t' with
  | .error e => .error e
  | .ok _ =>
    if t'.length = 90 then
      match IsValidChecksum E t' (t'.drop 81) with
      | .error e => .error e
      | .ok _ => .ok t'
    else .ok t'

/-! ## Transaction (src/transaction/transaction.go) -/

/-- Trinary sizes and offsets of a transaction (§6.1). -/
def SignatureMessageFragmentTrinaryOffset : Nat := 0
def SignatureMessageFragmentTrinarySize : Nat := 6561
def AddressTrinaryOffset : Nat := 6561
def AddressTrinarySize : Nat := 243
def ValueTrinaryOffset : Nat := 6804
def ValueTrinarySize : Nat := 81
def ObsoleteTagTrinaryOffset : Nat := 6885
def ObsoleteTagTrinarySize : Nat := 81
def TimestampTrinaryOffset : Nat := 6966
def TimestampTrinarySize : Nat := 27
def CurrentIndexTrinaryOffset : Nat := 6993
def CurrentIndexTrinarySize : Nat := 27
def LastIndexTrinaryOffset : Nat := 7020
def LastIndexTrinarySize : Nat := 27
def BundleTrinaryOffset : Nat := 7047
def BundleTrinarySize : Nat := 243
def TrunkTransactionTrinaryOffset : Nat := 7290
def TrunkTransactionTrinarySize : Nat := 243
def BranchTransactionTrinaryOffset : Nat := 7533
def BranchTransactionTrinarySize : Nat := 243
def TagTrinaryOffset : Nat := 7776
def TagTrinarySize : Nat := 81
def AttachmentTimestampTrinaryOffset : Nat := 7857
def AttachmentTimestampTrinarySize : Nat := 27
def AttachmentTimestampLowerBoundTrinaryOffset : Nat := 7884
def AttachmentTimestampLowerBoundTrinarySize : Nat := 27
def AttachmentTimestampUpperBoundTrinaryOffset : Nat := 7911
def AttachmentTimestampUpperBoundTrinarySize : Nat := 27
def NonceTrinaryOffset : Nat := 7938
def NonceTrinarySize : Nat := 81
def TransactionTrinarySize : Nat := 8019

/-- The transaction record of `src/transaction/transaction.go`; the Go
`time.Time` timestamp is represented by its Unix seconds, which is the
only view the codec uses. -/
structure Transaction where
  SignatureMessageFragment : Trytes
  Address : Trytes
  Value : Int
  ObsoleteTag : Trytes
  Timestamp : Int
  CurrentIndex : Int
  LastIndex : Int
  Bundle : Trytes
  TrunkTransaction : Trytes
  BranchTransaction : Trytes
  Tag : Trytes
  AttachmentTimestamp : Trytes
  AttachmentTimestampLowerBound : Trytes
  AttachmentTimestampUpperBound : Trytes
  Nonce : Trytes
deriving DecidableEq, Repr

/-- Error kinds of `checkTransaction` in `src/transaction/transaction.go`. -/
inductive TxError where
  | invalidTransactionTrytes
  | invalidTransactionLength
  | invalidValuePadding
  | addrError (e : AddrError)
deriving DecidableEq, Repr

/-- `checkTransaction` of `src/transaction/transaction.go`: the trytes
must be over the alphabet, 2673 characters long, and the 16 trytes at
[2279, 2295) must all be `9`. -/
def checkTransaction (t : Trytes) : Except TxError Unit :=
  if ¬ t.all isValidTryte then .error .invalidTransactionTrytes
  else if t.length ≠ TransactionTrinarySize / 3 then .error .invalidTransactionLength
  else if (t.drop 2279).take 16 ≠ List.replicate 16 '9' then .error .invalidValuePadding
  else .ok ()

/-- `Transaction.parser` of `src/transaction/transaction.go`: slice the
8019-trit frame into the fields; the address slice goes through
`signing.ToAddress` and its error is propagated. -/
def parseTransaction (E : CryptoEnv) (trits : Trits) : Except TxError Transaction :=
  match ToAddress E (tritsToTrytes ((trits.drop AddressTrinaryOffset).take AddressTrinarySize)) with
  | .error e => .error (.addrError e)
  | .ok addr => .ok
    { SignatureMessageFragment :=
        tritsToTrytes (trits.take SignatureMessageFragmentTrinarySize)
      Address := addr
      Value := tritsToInt ((trits.drop ValueTrinaryOffset).take ValueTrinarySize)
      ObsoleteTag := tritsToTrytes ((trits.drop ObsoleteTagTrinaryOffset).take ObsoleteTagTrinarySize)
      Timestamp := tritsToInt ((trits.drop TimestampTrinaryOffset).take TimestampTrinarySize)
      CurrentIndex := tritsToInt ((trits.drop CurrentIndexTrinaryOffset).take CurrentIndexTrinarySize)
      LastIndex := tritsToInt ((trits.drop LastIndexTrinaryOffset).take LastIndexTrinarySize)
      Bundle := tritsToTrytes ((trits.drop BundleTrinaryOffset).take BundleTrinarySize)
      TrunkTransaction := tritsToTrytes ((trits.drop TrunkTransactionTrinaryOffset).take TrunkTransactionTrinarySize)
      BranchTransaction := tritsToTrytes ((trits.drop BranchTransactionTrinaryOffset).take BranchTransactionTrinarySize)
      Tag := tritsToTrytes ((trits.drop TagTrinaryOffset).take TagTrinarySize)
      AttachmentTimestamp := tritsToTrytes ((trits.drop AttachmentTimestampTrinaryOffset).take AttachmentTimestampTrinarySize)
      AttachmentTimestampLowerBound := tritsToTrytes ((trits.drop AttachmentTimestampLowerBoundTrinaryOffset).take AttachmentTimestampLowerBoundTrinarySize)
      AttachmentTimestampUpperBound := tritsToTrytes ((trits.drop AttachmentTimestampUpperBoundTrinaryOffset).take AttachmentTimestampUpperBoundTrinarySize)
      Nonce := tritsToTrytes ((trits.drop NonceTrinaryOffset).take NonceTrinarySize) }

/-- `NewTransaction` of `src/transaction/transaction.go`:
`checkTransaction` followed by the parser. -/
def NewTransaction (E : CryptoEnv) (t : Trytes) : Except TxError Transaction :=
  match checkTransaction t with
  | .error e => .error e
  | .ok _ => parseTransaction E (trytesToTrits t)

/-- `Transaction.Trytes` of `src/transaction/transaction.go`: serialize
the fields into a zeroed 8019-trit buffer by `copy` at the frame
offsets, then convert to 2673 trytes. -/
def Transaction.toTrytes (t : Transaction) : Trytes :=
  let tr : Trits := List.replicate TransactionTrinarySize 0
  let tr := copyAt tr 0 (trytesToTrits t.SignatureMessageFragment)
  let tr := copyAt tr AddressTrinaryOffset (trytesToTrits t.Address)
  let tr := copyAt tr ValueTrinaryOffset (intToTrits t.Value ValueTrinarySize)
  let tr := copyAt tr ObsoleteTagTrinaryOffset (trytesToTrits t.ObsoleteTag)
  let tr := copyAt tr TimestampTrinaryOffset (intToTrits t.Timestamp TimestampTrinarySize)
  let tr := copyAt tr CurrentIndexTrinaryOffset (intToTrits t.CurrentIndex CurrentIndexTrinarySize)
  let tr := copyAt tr LastIndexTrinaryOffset (intToTrits t.LastIndex LastIndexTrinarySize)
  let tr := copyAt tr BundleTrinaryOffset (trytesToTrits t.Bundle)
  let tr := copyAt tr TrunkTransactionTrinaryOffset (trytesToTrits t.TrunkTransaction)
  let tr := copyAt tr BranchTransactionTrinaryOffset (trytesToTrits t.BranchTransaction)
  let tr := copyAt tr TagTrinaryOffset (trytesToTrits t.Tag)
  let tr := copyAt tr AttachmentTimestampTrinaryOffset (trytesToTrits t.AttachmentTimestamp)
  let tr := copyAt tr AttachmentTimestampLowerBoundTrinaryOffset (trytesToTrits t.AttachmentTimestampLowerBound)
  let tr := copyAt tr AttachmentTimestampUpperBoundTrinaryOffset (trytesToTrits t.AttachmentTimestampUpperBound)
  let tr := copyAt tr NonceTrinaryOffset (trytesToTrits t.Nonce)
  tritsToTrytes tr

/-- `Transaction.Hash` of `src/transaction/transaction.go`:
`curl.Hash(t.Trytes())`. -/
def Transaction.Hash (E : CryptoEnv) (t : Transaction) : Trytes :=
  E.curlHash t.toTrytes

/-- `Transaction.HasValidNonce` of `src/transaction/transaction.go`:
the trailing-zero count of the Curl hash is at least `mwm`. -/
def Transaction.HasValidNonce (E : CryptoEnv) (t : Transaction) (mwm : Int) : Bool :=
  decide (trailingZeros (trytesToTrits (t.Hash E)) ≥ mwm)

/-! ## Bundle (src/bundle/bundle.go, src/bundle/transfer.go) -/

/-- A bundle is an ordered list of transactions. -/
abbrev Bundle := List Transaction

/-- The length of the hashed region per transaction:
`BundleTrinaryOffset - AddressTrinaryOffset` = 486 trits. -/
def hashedLen : Nat := 486

/-- `copyRelevantTritsForBundleHash` of `src/bundle/bundle.go`: copy
address, value, obsolete tag, timestamp, current index and last index
of one transaction into the buffer starting at `off`. -/
def copyRelevantTrits (buf : Trits) (off : Nat) (b : Transaction) (i l : Int) : Trits :=
  let buf := copyAt buf off (trytesToTrits b.Address)
  let buf := copyAt buf (off + 243) (intToTrits b.Value 81)
  let buf := copyAt buf (off + 243 + 81) (trytesToTrits b.ObsoleteTag)
  let buf := copyAt buf (off + 243 + 81 + 81) (intToTrits b.Timestamp 27)
  let buf := copyAt buf (off + 243 + 81 + 81 + 27) (intToTrits i 27)
  let buf := copyAt buf (off + 243 + 81 + 81 + 27 + 27) (intToTrits (l - 1) 27)
  buf

/-- The trit stream absorbed by `Bundle.Hash` of `src/bundle/bundle.go`:
one 486-trit working buffer is reused across the transactions and
absorbed once per transaction. -/
def hashInputAux (l : Int) : Nat → Trits → Bundle → Trits
  | _, _, [] => []
  | i, buf, b :: rest =>
    let buf' := copyRelevantTrits buf 0 b (Int.ofNat i) l
    buf' ++ hashInputAux l (i + 1) buf' rest

/-- `Bundle.Hash` of `src/bundle/bundle.go`: absorb the relevant trits of
every transaction into a fresh Kerl and squeeze 243 trits. -/
def Bundle.Hash (E : CryptoEnv) (bundle : Bundle) : Trytes :=
  tritsToTrytes
    (E.kerlHash (hashInputAux (Int.ofNat bundle.length) 0 (List.replicate hashedLen 0) bundle))

/-- The single buffer of all hashed-relevant trits that
`Bundle.NormalizedHash` builds: transaction `i` occupies region
`[i*486, (i+1)*486)`. -/
def mkBundleBufAux (l : Int) : Nat → Trits → Bundle → Trits
  | _, buf, [] => buf
  | i, buf, b :: rest =>
    mkBundleBufAux l (i + 1) (copyRelevantTrits buf (i * hashedLen) b (Int.ofNat i) l) rest

/-- The initial hashed buffer of `Bundle.NormalizedHash`. -/
def mkBundleBuf (bundle : Bundle) : Trits :=
  mkBundleBufAux (Int.ofNat bundle.length) 0
    (List.replicate (hashedLen * bundle.length) 0) bundle

/-- The relative offset of the first transaction's obsolete tag inside
the hashed buffer: `ObsoleteTagTrinaryOffset - AddressTrinaryOffset`. -/
def obsOffset : Nat := 324

/-- One retry step of the normalized-hash loop: increment the 81-trit
obsolete-tag region of the first transaction inside the buffer. -/
def incObsoleteRegion (buf : Trits) : Trits :=
  copyAt buf obsOffset (incTrits ((buf.drop obsOffset).take 81))

/-- The retry loop of `Bundle.NormalizedHash`: hash the buffer, and while
the normalized hash contains a 13 entry, increment the obsolete-tag
region and retry with a reset Kerl; the Go loop is unbounded, so it is
given fuel. -/
def nhLoop (E : CryptoEnv) : Nat → Trits → Option (Trytes × Trits)
  | 0, _ => none
  | fuel + 1, buf =>
    let h := tritsToTrytes (E.kerlHash buf)
    if (normalize h).contains 13 then nhLoop E fuel (incObsoleteRegion buf)
    else some (h, buf)

/-- The trytes of the obsolete-tag region of a hashed buffer, which
`NormalizedHash` stores back into the first transaction. -/
def finalObsTag (buf : Trits) : Trytes :=
  tritsToTrytes ((buf.drop obsOffset).take 81)

/-- `Bundle.NormalizedHash` of `src/bundle/bundle.go`: run the retry loop
on the hashed buffer and store the final obsolete-tag region back into
the first transaction; an empty bundle faults in the source (index out
of range) and yields `none`. -/
def Bundle.NormalizedHash (E : CryptoEnv) (fuel : Nat) (bundle : Bundle) :
    Option (Trytes × Bundle) :=
  match bundle with
  | [] => none
  | b0 :: rest =>
    match nhLoop E fuel (mkBundleBuf (b0 :: rest)) with
    | none => none
    | some (h, buf) =>
      some (h, { b0 with ObsoleteTag := finalObsTag buf } :: rest)

/-- The per-transaction update of `Bundle.Finalize`: set the signature
message fragment from `sig` when present and non-empty, then the
indices and the bundle hash. -/
def finalizeTx (sig : List Trytes) (l : Nat) (h : Trytes) (i : Nat) (b : Transaction) :
    Transaction :=
  let b :=
    if i < sig.length ∧ sig.getD i [] ≠ [] then
      { b with SignatureMessageFragment := padTrytes (sig.getD i []) 2187 }
    else b
  { b with CurrentIndex := Int.ofNat i, LastIndex := Int.ofNat l - 1, Bundle := h }

/-- Map with the element index, starting at `i`. -/
def mapWithIndex (f : Nat → α → β) : Nat → List α → List β
  | _, [] => []
  | i, a :: rest => f i a :: mapWithIndex f (i + 1) rest

/-- `Bundle.Finalize` of `src/bundle/bundle.go`: compute the normalized
hash (mutating the first obsolete tag), then set fragments, indices and
the bundle hash on every transaction. -/
def Bundle.Finalize (E : CryptoEnv) (fuel : Nat) (bundle : Bundle) (sig : List Trytes) :
    Option Bundle :=
  match Bundle.NormalizedHash E fuel bundle with
  | none => none
  | some (h, bundle') => some (mapWithIndex (finalizeTx sig bundle.length h) 0 bundle')

/-- Error kinds of `Bundle.IsValid` in `src/bundle/bundle.go`. -/
inductive BundleError where
  | invalidCurrentIndex
  | invalidLastIndex
  | nonFinalizedBundle
  | invalidBundleBalance
  | invalidSignature
deriving DecidableEq, Repr

/-- The per-transaction early-return checks of `Bundle.IsValid`:
coherent indices for every transaction, and a non-empty signature
message fragment on every input (negative value) transaction. -/
def indexChecks (lastIdx : Int) : Nat → Bundle → Option BundleError
  | _, [] => none
  | i, b :: rest =>
    if b.CurrentIndex ≠ Int.ofNat i then some .invalidCurrentIndex
    else if b.LastIndex ≠ lastIdx then some .invalidLastIndex
    else if b.Value ≥ 0 then indexChecks lastIdx (i + 1) rest
    else if isEmptyTrytes b.SignatureMessageFragment then some .nonFinalizedBundle
    else indexChecks lastIdx (i + 1) rest

/-- The sum of all transaction values in the bundle. -/
def totalValue (bundle : Bundle) : Int :=
  (bundle.map (fun b => b.Value)).sum

/-- The signature message fragments of the zero-value continuation
transactions at `addr` among the given transactions. -/
def contFragsAfter (addr : Trytes) : Bundle → List Trytes
  | [] => []
  | tx :: rest =>
    if tx.Address = addr ∧ tx.Value = 0 then
      tx.SignatureMessageFragment :: contFragsAfter addr rest
    else contFragsAfter addr rest

/-- The fragment list `IsValid` accumulates for address `addr`: for each
input transaction at `addr`, its own fragment followed by the fragments
of every later zero-value transaction at the same address. -/
def sigFragsFor (addr : Trytes) : Bundle → List Trytes
  | [] => []
  | b :: rest =>
    if b.Address = addr ∧ b.Value < 0 then
      (b.SignatureMessageFragment :: contFragsAfter addr rest) ++ sigFragsFor addr rest
    else sigFragsFor addr rest

/-- The addresses owning at least one input (negative value)
transaction; `IsValid` verifies one concatenated signature per such
address (the Go map iteration order does not affect the outcome). -/
def inputAddresses (bundle : Bundle) : List Trytes :=
  ((bundle.filter (fun b => b.Value < 0)).map (fun b => b.Address)).dedup

/-- `Bundle.IsValid` of `src/bundle/bundle.go`. -/
def Bundle.IsValid (E : CryptoEnv) (bundle : Bundle) : Except BundleError Unit :=
  match indexChecks (Int.ofNat bundle.length - 1) 0 bundle with
  | some e => .error e
  | none =>
    if totalValue bundle ≠ 0 then .error .invalidBundleBalance
    else if (inputAddresses bundle).all
        (fun addr => E.isValidSig addr (sigFragsFor addr bundle) (Bundle.Hash E bundle)) then
      .ok ()
    else .error .invalidSignature

/-- `AddressInfo` of `src/bundle/transfer.go`. -/
structure AddressInfo where
  Seed : Trytes
  Index : Int
  Security : Int
deriving DecidableEq, Repr

/-- `AddressInfo.Address` of `src/bundle/transfer.go`:
`signing.NewAddress(seed, index, security)`. -/
def AddressInfo.Address (E : CryptoEnv) (a : AddressInfo) : Trytes :=
  E.newAddress a.Seed a.Index a.Security

/-- `AddressInfo.Key` of `src/bundle/transfer.go`:
`signing.NewKey(seed, index, security)`. -/
def AddressInfo.Key (E : CryptoEnv) (a : AddressInfo) : Trytes :=
  E.newKey a.Seed a.Index a.Security

/-- A transaction with its signature message fragment replaced. -/
def withSMF (b : Transaction) (s : Trytes) : Transaction :=
  { b with SignatureMessageFragment := s }

/-- Replace the signature message fragment of the transaction at
position `i`. -/
def updateSMF : Bundle → Nat → Trytes → Bundle
  | [], _, _ => []
  | b :: rest, 0, s => { b with SignatureMessageFragment := s } :: rest
  | b :: rest, i + 1, s => b :: updateSMF rest i s

/-- Fold that propagates `none` (the Go panic on an out-of-range
index). -/
def foldOpt (f : β → α → Option β) : β → List α → Option β
  | b, [] => some b
  | b, a :: rest =>
    match f b a with
    | none => none
    | some b' => foldOpt f b' rest

/-- The body of the continuation loop of `Bundle.SignInputs` for
fragment `j` of the input at position `i`: when the transaction at
`i + j` carries the same address with value 0, store the signature of
normalized-hash chunk `j % 3` under key fragment `j`; an out-of-range
access faults in the source and yields `none`. -/
def signContStep (E : CryptoEnv) (nh : List Int) (key : Trytes) (i : Nat)
    (cur : Bundle) (j : Nat) : Option Bundle :=
  match cur[i]?, cur[i + j]? with
  | some bi, some bij =>
    if bij.Address = bi.Address ∧ bij.Value = 0 then
      some (updateSMF cur (i + j)
        (E.sign ((nh.drop ((j % 3) * 27)).take 27) ((key.drop (2187 * j)).take 2187)))
    else some cur
  | _, _ => none

/-- The `AddressInfo` found by `SignInputs` for an input transaction:
the first entry whose derived address matches the transaction's
address, or the Go zero value when none matches. -/
def matchingInfo (E : CryptoEnv) (inputs : List AddressInfo) (tx : Transaction) :
    AddressInfo :=
  (inputs.find? (fun inp => inp.Address E = tx.Address)).getD ⟨[], 0, 0⟩

/-- The body of the main loop of `Bundle.SignInputs` at position `i`:
skip non-inputs; otherwise locate the matching `AddressInfo`, derive the
key, sign the first chunk into position `i` and run the continuation
loop for `j = 1 .. security-1`. -/
def signStep (E : CryptoEnv) (inputs : List AddressInfo) (nh : List Int)
    (cur : Bundle) (i : Nat) : Option Bundle :=
  match cur[i]? with
  | none => none
  | some b =>
    if b.Value ≥ 0 then some cur
    else
      foldOpt (signContStep E nh ((matchingInfo E inputs b).Key E) i)
        (updateSMF cur i (E.sign (nh.take 27) (((matchingInfo E inputs b).Key E).take 2187)))
        (List.range' 1 ((matchingInfo E inputs b).Security - 1).toNat)

/-- `Bundle.SignInputs` of `src/bundle/bundle.go`: normalize the bundle
hash, then sign every input transaction and its continuation
transactions. -/
def Bundle.SignInputs (E : CryptoEnv) (bundle : Bundle) (inputs : List AddressInfo) :
    Option Bundle :=
  foldOpt (signStep E inputs (normalize (Bundle.Hash E bundle))) bundle
    (List.range bundle.length)

/-- A smallest concrete crypto environment, used to instantiate the
universally quantified theorems on concrete inputs. -/
def zeroEnv : CryptoEnv where
  kerlHash := fun _ => List.replicate 243 0
  kerlHash_length := fun _ => List.length_replicate _ _
  curlHash := fun _ => []
  sign := fun _ _ => []
  isValidSig := fun _ _ _ => true
  newAddress := fun _ _ _ => []
  newKey := fun _ _ _ => []

/-- The all-empty transaction used by several witnesses. -/
def txZero : Transaction :=
  ⟨[], [], 0, [], 0, 0, 0, [], [], [], [], [], [], [], []⟩

/-- The expected result of finalizing the singleton zero bundle with a
single fragment `"A"` under the trivial environment. -/
def txFinal : Transaction :=
  ⟨padTrytes ['A'] 2187, [], 0, List.replicate 27 '9', 0, 0, 0,
    List.replicate 81 '9', [], [], [], [], [], [], []⟩

/-- A single input (negative value) transaction used by the SignInputs
witness. -/
def txInput : Transaction :=
  ⟨[], [], -1, [], 0, 0, 0, [], [], [], [], [], [], [], []⟩

/-- The fields of a transaction that enter the bundle-hash buffer. -/
def sameRelevant (x y : Transaction) : Prop :=
  x.Address = y.Address ∧ x.Value = y.Value ∧
    x.ObsoleteTag = y.ObsoleteTag ∧ x.Timestamp = y.Timestamp

/-! ## Basic lemmas about the trinary codec -/

theorem balDigit_isTrit (n : Int) : isTrit (balDigit n) := by
  unfold balDigit isTrit
  have h0 : 0 ≤ n % 3 := Int.emod_nonneg n (by norm_num)
  have h3 : n % 3 < 3 := Int.emod_lt_of_pos n (by norm_num)
  by_cases h : n % 3 = 2
  · simp [h]
  · simp [h]
    omega

theorem intToTrits_length (n : Int) (w : Nat) : (intToTrits n w).length = w := by
  induction w generalizing n with
  | zero => simp [intToTrits]
  | succ w ih => simp [intToTrits, ih]

theorem intToTrits_isTrit (n : Int) (w : Nat) : ∀ x ∈ intToTrits n w, isTrit x := by
  induction w generalizing n with
  | zero => simp [intToTrits]
  | succ w ih =>
    intro x hx
    simp only [intToTrits, List.mem_cons] at hx
    rcases hx with h | h
    · exact h ▸ balDigit_isTrit n
    · exact ih _ x h

theorem tryteToTrits_length (c : Char) : (tryteToTrits c).length = 3 :=
  intToTrits_length _ _

theorem tryteToTrits_isTrit (c : Char) : ∀ x ∈ tryteToTrits c, isTrit x :=
  intToTrits_isTrit _ _

theorem trytesToTrits_length (t : Trytes) : (trytesToTrits t).length = 3 * t.length := by
  induction t with
  | nil => simp [trytesToTrits]
  | cons c rest ih =>
    simp [trytesToTrits] at ih ⊢
    simp [tryteToTrits_length, ih]
    ring

theorem trytesToTrits_isTrit (t : Trytes) : ∀ x ∈ trytesToTrits t, isTrit x := by
  intro x hx
  simp only [trytesToTrits, List.mem_flatMap] at hx
  obtain ⟨c, _, hc⟩ := hx
  exact tryteToTrits_isTrit c x hc

theorem tritsToTrytes_length : ∀ v : Trits, (tritsToTrytes v).length = v.length / 3
  | [] => by simp [tritsToTrytes]
  | [_] => by simp [tritsToTrytes]
  | [_, _] => by simp [tritsToTrytes]
  | _ :: _ :: _ :: rest => by
    simp only [tritsToTrytes, List.length_cons, tritsToTrytes_length rest]
    omega

theorem copyAt_length (buf : List α) (off : Nat) (src : List α) :
    (copyAt buf off src).length = buf.length := by
  unfold copyAt
  simp only [List.length_append, List.length_take, List.length_drop]
  omega

theorem copyAt_nil (buf : List α) (off : Nat) : copyAt buf off ([] : List α) = buf := by
  unfold copyAt
  simp [List.take_append_drop]

theorem copyAt_append (done rest src : List α) (off : Nat) (hoff : done.length = off)
    (hlen : src.length ≤ rest.length) :
    copyAt (done ++ rest) off src = done ++ src ++ rest.drop src.length := by
  unfold copyAt
  have hk : min src.length ((done ++ rest).length - off) = src.length := by
    simp [List.length_append, hoff]; omega
  simp only [hk]
  have h1 : (done ++ rest).take off = done := by
    rw [List.take_append_of_le_length (by omega), ← hoff, List.take_length]
  have h2 : (done ++ rest).drop (off + src.length) = rest.drop src.length := by
    rw [List.drop_append_eq_append_drop]
    simp [hoff]
  rw [h1, h2, List.take_of_length_le (le_refl _), List.append_assoc]

theorem leadingZeroCount_eq_takeWhile (t : Trits) :
    leadingZeroCount t = (t.takeWhile (fun x => x = 0)).length := by
  induction t with
  | nil => simp [leadingZeroCount]
  | cons a rest ih =>
    by_cases h : a = 0 <;> simp [leadingZeroCount, List.takeWhile_cons, h, ih]

theorem tritsToTrytes_append_three (v R : Trits) (h : v.length = 3) :
    tritsToTrytes (v ++ R) = tritsToTrytes v ++ tritsToTrytes R := by
  match v, h with
  | [a, b, c], _ => simp [tritsToTrytes]

theorem tritsToTrytes_tryteToTrits (c : Char) (h : isValidTryte c = true) :
    tritsToTrytes (tryteToTrits c) = [c] := by
  rcases Bool.or_eq_true_iff.mp h with h9 | hAZ
  · have : c = '9' := by simpa using h9
    subst this; decide
  · have hrange : 65 ≤ c.toNat ∧ c.toNat ≤ 90 := by
      simp [Char.le_def] at hAZ
      exact ⟨hAZ.1, hAZ.2⟩
    obtain ⟨h1, h2⟩ := hrange
    have hc : c = Char.ofNat c.toNat := (Char.ofNat_toNat c).symm
    rw [hc]
    set n := c.toNat with hn
    clear_value n
    interval_cases n <;> decide

theorem tritsToTrytes_trytesToTrits (t : Trytes) (h : t.all isValidTryte = true) :
    tritsToTrytes (trytesToTrits t) = t := by
  induction t with
  | nil => simp [trytesToTrits, tritsToTrytes]
  | cons c rest ih =>
    simp only [List.all_cons, Bool.and_eq_true] at h
    have : trytesToTrits (c :: rest) = tryteToTrits c ++ trytesToTrits rest := by
      simp [trytesToTrits]
    rw [this, tritsToTrytes_append_three _ _ (tryteToTrits_length c),
      tritsToTrytes_tryteToTrits c h.1, ih h.2]
    rfl

theorem tryteToTrits_valueToTryte (a b c : Int) (ha : isTrit a) (hb : isTrit b)
    (hc : isTrit c) : tryteToTrits (valueToTryte (a + 3 * b + 9 * c)) = [a, b, c] := by
  rcases ha with rfl | rfl | rfl <;> rcases hb with rfl | rfl | rfl <;>
    rcases hc with rfl | rfl | rfl <;> decide

theorem trytesToTrits_tritsToTrytes :
    ∀ v : Trits, (∀ x ∈ v, isTrit x) → v.length % 3 = 0 →
      trytesToTrits (tritsToTrytes v) = v
  | [], _, _ => by simp [tritsToTrytes, trytesToTrits]
  | [_], _, h3 => by simp at h3
  | [_, _], _, h3 => by simp at h3
  | a :: b :: c :: rest, hv, h3 => by
    have ha : isTrit a := hv a (by simp)
    have hb : isTrit b := hv b (by simp)
    have hc : isTrit c := hv c (by simp)
    have hrest : ∀ x ∈ rest, isTrit x := fun x hx => hv x (by simp [hx])
    have h3' : rest.length % 3 = 0 := by simp at h3; omega
    have : tritsToTrytes (a :: b :: c :: rest) =
        valueToTryte (a + 3 * b + 9 * c) :: tritsToTrytes rest := by
      simp [tritsToTrytes]
    rw [this]
    have : trytesToTrits (valueToTryte (a + 3 * b + 9 * c) :: tritsToTrytes rest) =
        tryteToTrits (valueToTryte (a + 3 * b + 9 * c)) ++ trytesToTrits (tritsToTrytes rest) := by
      simp [trytesToTrits]
    rw [this, tryteToTrits_valueToTryte a b c ha hb hc,
      trytesToTrits_tritsToTrytes rest hrest h3']
    rfl

theorem intToTrits_tritsToInt : ∀ v : Trits, (∀ x ∈ v, isTrit x) →
    intToTrits (tritsToInt v) v.length = v
  | [], _ => by simp [intToTrits]
  | d :: rest, hv => by
    have hd : isTrit d := hv d (by simp)
    have hrest : ∀ x ∈ rest, isTrit x := fun x hx => hv x (by simp [hx])
    have hint : tritsToInt (d :: rest) = d + 3 * tritsToInt rest := by
      simp [tritsToInt, List.foldr_cons]
    have hbal : balDigit (d + 3 * tritsToInt rest) = d := by
      have h2 : (d + 3 * tritsToInt rest) % 3 = d % 3 := by omega
      show (if (d + 3 * tritsToInt rest) % 3 = 2 then -1
        else (d + 3 * tritsToInt rest) % 3) = d
      rw [h2]
      rcases hd with rfl | rfl | rfl <;> decide
    simp only [List.length_cons, intToTrits, hint, hbal]
    have hdiv : (d + 3 * tritsToInt rest - d) / 3 = tritsToInt rest := by
      omega
    rw [hdiv, intToTrits_tritsToInt rest hrest]


theorem ChecksumHash_length (E : CryptoEnv) (a : Trytes) :
    (ChecksumHash E a).length = 81 := by
  unfold ChecksumHash
  rw [tritsToTrytes_length, E.kerlHash_length]

theorem toTrytes_length (t : Transaction) : t.toTrytes.length = 2673 := by
  unfold Transaction.toTrytes
  rw [tritsToTrytes_length]
  simp only [copyAt_length, List.length_replicate]
  rfl

/-- C6: for every transaction `t` and minimum weight magnitude `mwm`,
`HasValidNonce` returns true iff the number of trailing zero trits of
the Curl-P-81 hash of `t`'s 2673-tryte serialization is at least
`mwm`. -/
theorem hasValidNonce_spec (E : CryptoEnv) (t : Transaction) (mwm : Int) :
    t.toTrytes.length = 2673 ∧
    (Transaction.HasValidNonce E t mwm = true ↔
      mwm ≤ Int.ofNat ((trytesToTrits (E.curlHash t.toTrytes)).reverse.takeWhile
        (fun x => x = 0)).length) := by
  refine ⟨toTrytes_length t, ?_⟩
  simp [Transaction.HasValidNonce, Transaction.Hash, trailingZeros,
    leadingZeroCount_eq_takeWhile, ge_iff_le]

/-- C4: for every 81-tryte address `a`, `WithChecksum` succeeds with a
90-tryte result whose first 81 trytes are `a` and whose last 9 trytes
are trytes 72..81 of the Kerl hash of `a`; on any other length,
`Checksum` and `WithChecksum` fail with the invalid-address-length
error. -/
theorem withChecksum_spec (E : CryptoEnv) (a : Trytes) :
    (a.length = 81 →
      Checksum E a = .ok (((ChecksumHash E a).drop 72).take 9) ∧
      WithChecksum E a = .ok (a ++ ((ChecksumHash E a).drop 72).take 9) ∧
      (a ++ ((ChecksumHash E a).drop 72).take 9).length = 90 ∧
      (a ++ ((ChecksumHash E a).drop 72).take 9).take 81 = a ∧
      (a ++ ((ChecksumHash E a).drop 72).take 9).drop 81 =
        ((ChecksumHash E a).drop 72).take 9) ∧
    (a.length ≠ 81 →
      Checksum E a = .error .invalidAddressLength ∧
      WithChecksum E a = .error .invalidAddressLength) := by
  constructor
  · intro h81
    have hcs : Checksum E a = .ok (((ChecksumHash E a).drop 72).take 9) := by
      unfold Checksum
      simp [h81]
    have hlen9 : (((ChecksumHash E a).drop 72).take 9).length = 9 := by
      simp [ChecksumHash_length]
    refine ⟨hcs, ?_, ?_, ?_, ?_⟩
    · unfold WithChecksum
      simp [h81, hcs]
    · simp [hlen9, h81]
    · rw [List.take_append_of_le_length (by omega), ← h81, List.take_length]
    · rw [← h81, List.drop_left]
  · intro hne
    constructor
    · unfold Checksum
      simp [hne]
    · unfold WithChecksum
      simp [hne]

/-- Witness for C4: the all-`A` address with the trivial environment. -/
theorem withChecksum_spec_witness :
    ((List.replicate 81 'A').length = 81) ∧
    (Checksum zeroEnv (List.replicate 81 'A') =
        .ok (((ChecksumHash zeroEnv (List.replicate 81 'A')).drop 72).take 9) ∧
      WithChecksum zeroEnv (List.replicate 81 'A') =
        .ok (List.replicate 81 'A' ++
          ((ChecksumHash zeroEnv (List.replicate 81 'A')).drop 72).take 9) ∧
      (List.replicate 81 'A' ++
        ((ChecksumHash zeroEnv (List.replicate 81 'A')).drop 72).take 9).length = 90 ∧
      (List.replicate 81 'A' ++
        ((ChecksumHash zeroEnv (List.replicate 81 'A')).drop 72).take 9).take 81 =
        List.replicate 81 'A' ∧
      (List.replicate 81 'A' ++
        ((ChecksumHash zeroEnv (List.replicate 81 'A')).drop 72).take 9).drop 81 =
        ((ChecksumHash zeroEnv (List.replicate 81 'A')).drop 72).take 9) :=
  ⟨by simp, (withChecksum_spec zeroEnv (List.replicate 81 'A')).1 (by simp)⟩

theorem nhLoop_some (E : CryptoEnv) : ∀ (fuel : Nat) (buf : Trits) (h : Trytes)
    (buf' : Trits), nhLoop E fuel buf = some (h, buf') →
    ∃ k, buf' = incObsoleteRegion^[k] buf ∧
      h = tritsToTrytes (E.kerlHash buf') ∧
      (normalize h).contains 13 = false ∧
      ∀ j < k, (normalize (tritsToTrytes (E.kerlHash
        (incObsoleteRegion^[j] buf)))).contains 13 = true := by
  intro fuel
  induction fuel with
  | zero => intro buf h buf' hres; simp [nhLoop] at hres
  | succ fuel ih =>
    intro buf h buf' hres
    unfold nhLoop at hres
    by_cases h13 : (normalize (tritsToTrytes (E.kerlHash buf))).contains 13 = true
    · simp only [h13, if_true] at hres
      obtain ⟨k, hbuf, hh, hc, hall⟩ := ih (incObsoleteRegion buf) h buf' hres
      refine ⟨k + 1, ?_, hh, hc, ?_⟩
      · rw [hbuf, ← Function.iterate_succ_apply]
      · intro j hj
        match j with
        | 0 => simpa using h13
        | j' + 1 =>
          rw [Function.iterate_succ_apply]
          exact hall j' (by omega)
    · simp only [Bool.not_eq_true] at h13
      simp only [h13, Bool.false_eq_true, if_false, Option.some.injEq, Prod.mk.injEq] at hres
      exact ⟨0, hres.2.symm, by rw [← hres.2, hres.1], by rw [← hres.1]; exact h13,
        by omega⟩

/-- C1: for every non-empty bundle, a successful `NormalizedHash` run
returns an 81-tryte hash whose normalization contains no 13 entry; the
hash is computed after some number `k` of in-place trit increments of
the 81-trit obsolete-tag region of the first transaction's hashed
buffer, every earlier candidate's normalization did contain a 13, and
the final region is stored back as the first transaction's obsolete
tag. -/
theorem normalizedHash_spec (E : CryptoEnv) (fuel : Nat) (bundle : Bundle)
    (h : Trytes) (bundle' : Bundle) (hne : bundle ≠ [])
    (hres : Bundle.NormalizedHash E fuel bundle = some (h, bundle')) :
    h.length = 81 ∧ (normalize h).contains 13 = false ∧
    ∃ k, h = tritsToTrytes (E.kerlHash (incObsoleteRegion^[k] (mkBundleBuf bundle))) ∧
      (∀ j < k, (normalize (tritsToTrytes (E.kerlHash
        (incObsoleteRegion^[j] (mkBundleBuf bundle))))).contains 13 = true) ∧
      bundle' = bundle.modifyHead (fun b0 =>
        { b0 with ObsoleteTag := finalObsTag (incObsoleteRegion^[k] (mkBundleBuf bundle)) }) := by
  match bundle, hne with
  | b0 :: rest, _ =>
    have hcons : Bundle.NormalizedHash E fuel (b0 :: rest) =
        match nhLoop E fuel (mkBundleBuf (b0 :: rest)) with
        | none => none
        | some (h, buf) => some (h, { b0 with ObsoleteTag := finalObsTag buf } :: rest) := rfl
    rw [hcons] at hres
    cases hl : nhLoop E fuel (mkBundleBuf (b0 :: rest)) with
    | none => rw [hl] at hres; simp at hres
    | some p =>
      obtain ⟨ph, pbuf⟩ := p
      rw [hl] at hres
      simp only [Option.some.injEq, Prod.mk.injEq] at hres
      obtain ⟨hh, hb'⟩ := hres
      obtain ⟨k, hbuf, hhash, hc, hall⟩ := nhLoop_some E fuel _ ph pbuf hl
      subst hh
      refine ⟨?_, hc, k, by rw [hhash, hbuf], hall, ?_⟩
      · rw [hhash, tritsToTrytes_length, E.kerlHash_length]
      · rw [← hb', List.modifyHead, hbuf, finalObsTag]


set_option maxRecDepth 100000 in
/-- Witness for C1: a singleton bundle under the trivial environment
finds a 13-free normalized hash on the first attempt. -/
theorem normalizedHash_spec_witness :
    (([txZero] : Bundle) ≠ []) ∧
    Bundle.NormalizedHash zeroEnv 1 [txZero] =
      some (List.replicate 81 '9',
        [{ txZero with ObsoleteTag := List.replicate 27 '9' }]) ∧
    ((List.replicate 81 '9').length = 81 ∧
      (normalize (List.replicate 81 '9')).contains 13 = false ∧
      ∃ k, List.replicate 81 '9' = tritsToTrytes (zeroEnv.kerlHash
          (incObsoleteRegion^[k] (mkBundleBuf [txZero]))) ∧
        (∀ j < k, (normalize (tritsToTrytes (zeroEnv.kerlHash
          (incObsoleteRegion^[j] (mkBundleBuf [txZero]))))).contains 13 = true) ∧
        [{ txZero with ObsoleteTag := List.replicate 27 '9' }] =
          ([txZero] : Bundle).modifyHead (fun b0 =>
            { b0 with ObsoleteTag := finalObsTag (incObsoleteRegion^[k] (mkBundleBuf [txZero])) })) :=
  ⟨by simp, by decide,
    normalizedHash_spec zeroEnv 1 [txZero] _ _ (by simp) (by decide)⟩


theorem copyRelevantTrits_congr (buf : Trits) (off : Nat) (x y : Transaction)
    (i l : Int) (hxy : sameRelevant x y) :
    copyRelevantTrits buf off x i l = copyRelevantTrits buf off y i l := by
  obtain ⟨h1, h2, h3, h4⟩ := hxy
  unfold copyRelevantTrits
  rw [h1, h2, h3, h4]

theorem mkBundleBufAux_congr (l : Int) : ∀ (i : Nat) (buf : Trits) (b1 b2 : Bundle),
    List.Forall₂ sameRelevant b1 b2 →
    mkBundleBufAux l i buf b1 = mkBundleBufAux l i buf b2 := by
  intro i buf b1 b2 hf
  induction hf generalizing i buf with
  | nil => rfl
  | cons hxy _ ih =>
    unfold mkBundleBufAux
    rw [copyRelevantTrits_congr _ _ _ _ _ _ hxy]
    exact ih _ _

theorem mkBundleBuf_congr (b1 b2 : Bundle) (hf : List.Forall₂ sameRelevant b1 b2) :
    mkBundleBuf b1 = mkBundleBuf b2 := by
  unfold mkBundleBuf
  rw [hf.length_eq]
  exact mkBundleBufAux_congr _ _ _ _ _ hf

/-- C2: `NormalizedHash` is deterministic — two bundles that agree on
the hashed contents (addresses, values, obsolete tags, timestamps,
pointwise, hence also on length) produce the same hash and the same
final obsolete tag in the first transaction. -/
theorem normalizedHash_deterministic (E : CryptoEnv) (fuel : Nat) (b1 b2 : Bundle)
    (hsame : List.Forall₂ sameRelevant b1 b2) :
    (Bundle.NormalizedHash E fuel b1).map
      (fun p => (p.1, p.2.head?.map (fun tx => tx.ObsoleteTag))) =
    (Bundle.NormalizedHash E fuel b2).map
      (fun p => (p.1, p.2.head?.map (fun tx => tx.ObsoleteTag))) := by
  cases hsame with
  | nil => rfl
  | @cons x y rest1 rest2 hxy hrest =>
    have hbuf : mkBundleBuf (x :: rest1) = mkBundleBuf (y :: rest2) :=
      mkBundleBuf_congr _ _ (List.Forall₂.cons hxy hrest)
    have hcons : ∀ (b0 : Transaction) (rest : Bundle),
        Bundle.NormalizedHash E fuel (b0 :: rest) =
          match nhLoop E fuel (mkBundleBuf (b0 :: rest)) with
          | none => none
          | some (h, buf) => some (h, { b0 with ObsoleteTag := finalObsTag buf } :: rest) :=
      fun _ _ => rfl
    rw [hcons, hcons, hbuf]
    cases nhLoop E fuel (mkBundleBuf (y :: rest2)) with
    | none => rfl
    | some p =>
      obtain ⟨ph, pbuf⟩ := p
      simp

/-- Witness for C2: two singleton bundles differing only in a
non-hashed field (the nonce). -/
theorem normalizedHash_deterministic_witness :
    (List.Forall₂ sameRelevant [txZero] [{ txZero with Nonce := ['A'] }]) ∧
    ((Bundle.NormalizedHash zeroEnv 1 [txZero]).map
      (fun p => (p.1, p.2.head?.map (fun tx => tx.ObsoleteTag))) =
    (Bundle.NormalizedHash zeroEnv 1 [{ txZero with Nonce := ['A'] }]).map
      (fun p => (p.1, p.2.head?.map (fun tx => tx.ObsoleteTag)))) :=
  ⟨List.Forall₂.cons ⟨rfl, rfl, rfl, rfl⟩ List.Forall₂.nil,
    normalizedHash_deterministic zeroEnv 1 _ _
      (List.Forall₂.cons ⟨rfl, rfl, rfl, rfl⟩ List.Forall₂.nil)⟩

theorem normalizedHash_some_shape (E : CryptoEnv) (fuel : Nat) (bundle : Bundle)
    (h : Trytes) (bundle' : Bundle)
    (hres : Bundle.NormalizedHash E fuel bundle = some (h, bundle')) :
    ∃ buf, nhLoop E fuel (mkBundleBuf bundle) = some (h, buf) ∧
      bundle' = bundle.modifyHead (fun b0 => { b0 with ObsoleteTag := finalObsTag buf }) := by
  match bundle with
  | [] => simp [Bundle.NormalizedHash] at hres
  | b0 :: rest =>
    have hcons : Bundle.NormalizedHash E fuel (b0 :: rest) =
        match nhLoop E fuel (mkBundleBuf (b0 :: rest)) with
        | none => none
        | some (h, buf) => some (h, { b0 with ObsoleteTag := finalObsTag buf } :: rest) := rfl
    rw [hcons] at hres
    cases hl : nhLoop E fuel (mkBundleBuf (b0 :: rest)) with
    | none => rw [hl] at hres; simp at hres
    | some p =>
      obtain ⟨ph, pbuf⟩ := p
      rw [hl] at hres
      simp only [Option.some.injEq, Prod.mk.injEq] at hres
      obtain ⟨hh, hb'⟩ := hres
      subst hh
      exact ⟨pbuf, rfl, by rw [← hb', List.modifyHead]⟩

theorem mapWithIndex_getElem? (f : Nat → α → β) : ∀ (l : List α) (s i : Nat),
    (mapWithIndex f s l)[i]? = (l[i]?).map (f (s + i)) := by
  intro l
  induction l with
  | nil => intro s i; simp [mapWithIndex]
  | cons a rest ih =>
    intro s i
    match i with
    | 0 => simp [mapWithIndex]
    | i + 1 =>
      simp only [mapWithIndex, List.getElem?_cons_succ]
      rw [ih (s + 1) i, show s + 1 + i = s + (i + 1) from by omega]

theorem mapWithIndex_length (f : Nat → α → β) : ∀ (l : List α) (s : Nat),
    (mapWithIndex f s l).length = l.length := by
  intro l
  induction l with
  | nil => intro s; rfl
  | cons a rest ih => intro s; simp [mapWithIndex, ih]

theorem modifyHead_getElem? (g : α → α) (l : List α) (i : Nat) :
    (l.modifyHead g)[i]? = if i = 0 then (l[0]?).map g else l[i]? := by
  match l, i with
  | [], _ => simp
  | a :: rest, 0 => simp
  | a :: rest, i + 1 => simp

theorem finalizeTx_fields (sig : List Trytes) (l : Nat) (h : Trytes) (i : Nat)
    (b : Transaction) :
    (finalizeTx sig l h i b).Address = b.Address ∧
    (finalizeTx sig l h i b).Value = b.Value ∧
    (finalizeTx sig l h i b).Timestamp = b.Timestamp ∧
    (finalizeTx sig l h i b).ObsoleteTag = b.ObsoleteTag ∧
    (finalizeTx sig l h i b).Tag = b.Tag ∧
    (finalizeTx sig l h i b).TrunkTransaction = b.TrunkTransaction ∧
    (finalizeTx sig l h i b).BranchTransaction = b.BranchTransaction ∧
    (finalizeTx sig l h i b).Nonce = b.Nonce ∧
    (finalizeTx sig l h i b).AttachmentTimestamp = b.AttachmentTimestamp ∧
    (finalizeTx sig l h i b).AttachmentTimestampLowerBound = b.AttachmentTimestampLowerBound ∧
    (finalizeTx sig l h i b).AttachmentTimestampUpperBound = b.AttachmentTimestampUpperBound := by
  unfold finalizeTx
  split <;> simp

/-- C8: after a successful `Finalize` on a bundle of length `n`, every
transaction `i` has `CurrentIndex = i`, `LastIndex = n - 1` and
`Bundle = H`, the normalized bundle hash; and wherever `sig` provides a
non-empty fragment, it is stored padded to 2187 trytes. -/
theorem finalize_spec (E : CryptoEnv) (fuel : Nat) (bundle : Bundle)
    (sig : List Trytes) (b' : Bundle)
    (hres : Bundle.Finalize E fuel bundle sig = some b') :
    ∃ h bundle'', Bundle.NormalizedHash E fuel bundle = some (h, bundle'') ∧
      b'.length = bundle.length ∧
      ∀ i tx, b'[i]? = some tx →
        tx.CurrentIndex = Int.ofNat i ∧
        tx.LastIndex = Int.ofNat bundle.length - 1 ∧
        tx.Bundle = h ∧
        (i < sig.length → sig.getD i [] ≠ [] →
          tx.SignatureMessageFragment = padTrytes (sig.getD i []) 2187) := by
  unfold Bundle.Finalize at hres
  cases hn : Bundle.NormalizedHash E fuel bundle with
  | none => rw [hn] at hres; simp at hres
  | some p =>
    obtain ⟨h, bundle''⟩ := p
    rw [hn] at hres
    simp only [Option.some.injEq] at hres
    obtain ⟨buf, _, hshape⟩ := normalizedHash_some_shape E fuel bundle h bundle'' hn
    have hlen'' : bundle''.length = bundle.length := by
      rw [hshape, List.length_modifyHead]
    refine ⟨h, bundle'', rfl, ?_, ?_⟩
    · rw [← hres, mapWithIndex_length, hlen'']
    · intro i tx htx
      rw [← hres, mapWithIndex_getElem? _ bundle'' 0 i] at htx
      cases hg : bundle''[i]? with
      | none => rw [hg] at htx; simp at htx
      | some tx0 =>
        rw [hg] at htx
        simp only [Nat.zero_add] at htx
        have htx2 : finalizeTx sig bundle.length h i tx0 = tx := by
          simpa using htx
        subst htx2
        unfold finalizeTx
        refine ⟨by split <;> rfl, by split <;> rfl, by split <;> rfl, ?_⟩
        intro hilt hne
        have hg2 : sig.getD i [] = sig[i] := List.getD_eq_getElem sig [] hilt
        rw [hg2] at hne
        simp [hilt, hne]

/-- C10 (frame): `Finalize` leaves the address, value, timestamp, tag,
trunk, branch, nonce and attachment-timestamp fields of every
transaction unchanged, and changes the obsolete tag of no transaction
other than the first. -/
theorem finalize_frame (E : CryptoEnv) (fuel : Nat) (bundle : Bundle)
    (sig : List Trytes) (b' : Bundle)
    (hres : Bundle.Finalize E fuel bundle sig = some b') :
    b'.length = bundle.length ∧
    ∀ i tx tx', bundle[i]? = some tx → b'[i]? = some tx' →
      (tx'.Address = tx.Address ∧ tx'.Value = tx.Value ∧
       tx'.Timestamp = tx.Timestamp ∧ tx'.Tag = tx.Tag ∧
       tx'.TrunkTransaction = tx.TrunkTransaction ∧
       tx'.BranchTransaction = tx.BranchTransaction ∧
       tx'.Nonce = tx.Nonce ∧
       tx'.AttachmentTimestamp = tx.AttachmentTimestamp ∧
       tx'.AttachmentTimestampLowerBound = tx.AttachmentTimestampLowerBound ∧
       tx'.AttachmentTimestampUpperBound = tx.AttachmentTimestampUpperBound) ∧
      (i ≠ 0 → tx'.ObsoleteTag = tx.ObsoleteTag) := by
  unfold Bundle.Finalize at hres
  cases hn : Bundle.NormalizedHash E fuel bundle with
  | none => rw [hn] at hres; simp at hres
  | some p =>
    obtain ⟨h, bundle''⟩ := p
    rw [hn] at hres
    simp only [Option.some.injEq] at hres
    obtain ⟨buf, _, hshape⟩ := normalizedHash_some_shape E fuel bundle h bundle'' hn
    have hlen'' : bundle''.length = bundle.length := by
      rw [hshape, List.length_modifyHead]
    constructor
    · rw [← hres, mapWithIndex_length, hlen'']
    · intro i tx tx' htx htx'
      rw [← hres, mapWithIndex_getElem? _ bundle'' 0 i] at htx'
      have hbi : bundle''[i]? = if i = 0 then (bundle[0]?).map
          (fun b0 => { b0 with ObsoleteTag := finalObsTag buf }) else bundle[i]? := by
        rw [hshape, modifyHead_getElem?]
      by_cases hi0 : i = 0
      · subst hi0
        rw [hbi] at htx'
        simp only [if_true, htx] at htx'
        have htx2 : finalizeTx sig bundle.length h 0
            { tx with ObsoleteTag := finalObsTag buf } = tx' := by
          simpa using htx'
        obtain ⟨f1, f2, f3, f4, f5, f6, f7, f8, f9, f10, f11⟩ :=
          finalizeTx_fields sig bundle.length h 0
            { tx with ObsoleteTag := finalObsTag buf }
        rw [htx2] at f1 f2 f3 f5 f6 f7 f8 f9 f10 f11
        exact ⟨⟨f1, f2, f3, f5, f6, f7, f8, f9, f10, f11⟩, fun hc => absurd rfl hc⟩
      · rw [hbi] at htx'
        simp only [hi0, if_false, htx] at htx'
        have htx2 : finalizeTx sig bundle.length h i tx = tx' := by
          simpa using htx'
        obtain ⟨f1, f2, f3, f4, f5, f6, f7, f8, f9, f10, f11⟩ :=
          finalizeTx_fields sig bundle.length h i tx
        rw [htx2] at f1 f2 f3 f4 f5 f6 f7 f8 f9 f10 f11
        exact ⟨⟨f1, f2, f3, f5, f6, f7, f8, f9, f10, f11⟩, fun _ => f4⟩


set_option maxRecDepth 100000 in
theorem finalize_txZero :
    Bundle.Finalize zeroEnv 1 [txZero] [['A']] = some [txFinal] := by
  have hnh : Bundle.NormalizedHash zeroEnv 1 [txZero] =
      some (List.replicate 81 '9',
        [{ txZero with ObsoleteTag := List.replicate 27 '9' }]) := by decide
  unfold Bundle.Finalize
  rw [hnh]
  simp only [mapWithIndex]
  unfold finalizeTx
  norm_num [txFinal, txZero]

set_option maxRecDepth 100000 in
/-- Witness for C8: finalizing the singleton zero bundle with one
fragment. -/
theorem finalize_spec_witness :
    Bundle.Finalize zeroEnv 1 [txZero] [['A']] = some [txFinal] ∧
    (∃ h bundle'', Bundle.NormalizedHash zeroEnv 1 [txZero] = some (h, bundle'') ∧
      ([txFinal] : Bundle).length = ([txZero] : Bundle).length ∧
      ∀ i tx, ([txFinal] : Bundle)[i]? = some tx →
        tx.CurrentIndex = Int.ofNat i ∧
        tx.LastIndex = Int.ofNat ([txZero] : Bundle).length - 1 ∧
        tx.Bundle = h ∧
        (i < ([['A']] : List Trytes).length → ([['A']] : List Trytes).getD i [] ≠ [] →
          tx.SignatureMessageFragment = padTrytes (([['A']] : List Trytes).getD i []) 2187)) :=
  ⟨finalize_txZero, finalize_spec zeroEnv 1 [txZero] [['A']] [txFinal] finalize_txZero⟩

set_option maxRecDepth 100000 in
/-- Witness for C10: the same finalization, checked for the frame
conditions. -/
theorem finalize_frame_witness :
    Bundle.Finalize zeroEnv 1 [txZero] [['A']] = some [txFinal] ∧
    (([txFinal] : Bundle).length = ([txZero] : Bundle).length ∧
      ∀ i tx tx', ([txZero] : Bundle)[i]? = some tx →
        ([txFinal] : Bundle)[i]? = some tx' →
        (tx'.Address = tx.Address ∧ tx'.Value = tx.Value ∧
         tx'.Timestamp = tx.Timestamp ∧ tx'.Tag = tx.Tag ∧
         tx'.TrunkTransaction = tx.TrunkTransaction ∧
         tx'.BranchTransaction = tx.BranchTransaction ∧
         tx'.Nonce = tx.Nonce ∧
         tx'.AttachmentTimestamp = tx.AttachmentTimestamp ∧
         tx'.AttachmentTimestampLowerBound = tx.AttachmentTimestampLowerBound ∧
         tx'.AttachmentTimestampUpperBound = tx.AttachmentTimestampUpperBound) ∧
        (i ≠ 0 → tx'.ObsoleteTag = tx.ObsoleteTag)) :=
  ⟨finalize_txZero, finalize_frame zeroEnv 1 [txZero] [['A']] [txFinal] finalize_txZero⟩

theorem indexChecks_none_iff (lastIdx : Int) :
    ∀ (txs : Bundle) (i0 : Nat), indexChecks lastIdx i0 txs = none ↔
      ∀ k tx, txs[k]? = some tx →
        tx.CurrentIndex = Int.ofNat (i0 + k) ∧ tx.LastIndex = lastIdx ∧
        (tx.Value < 0 → isEmptyTrytes tx.SignatureMessageFragment = false) := by
  intro txs
  induction txs with
  | nil => intro i0; simp [indexChecks]
  | cons b rest ih =>
    intro i0
    unfold indexChecks
    by_cases h1 : b.CurrentIndex = Int.ofNat i0
    · simp only [h1, ne_eq, not_true_eq_false, if_false]
      by_cases h2 : b.LastIndex = lastIdx
      · simp only [h2, not_true_eq_false, if_false]
        by_cases h3 : b.Value ≥ 0
        · simp only [h3, if_true]
          rw [ih (i0 + 1)]
          constructor
          · intro H k tx htx
            match k, htx with
            | 0, htx =>
              have hb : b = tx := by simpa using htx
              subst hb
              exact ⟨by simpa using h1, h2, fun hneg => absurd h3 (by omega)⟩
            | k + 1, htx =>
              have := H k tx (by simpa using htx)
              rw [show i0 + 1 + k = i0 + (k + 1) from by omega] at this
              exact this
          · intro H k tx htx
            have := H (k + 1) tx (by simpa using htx)
            rw [show i0 + 1 + k = i0 + (k + 1) from by omega]
            exact this
        · simp only [h3, if_false]
          by_cases h4 : isEmptyTrytes b.SignatureMessageFragment = true
          · simp only [h4, if_true]
            constructor
            · intro hcontra; cases hcontra
            · intro H
              have := (H 0 b (by simp)).2.2 (by omega)
              rw [h4] at this
              cases this
          · simp only [Bool.not_eq_true] at h4
            simp only [h4, Bool.false_eq_true, if_false]
            rw [ih (i0 + 1)]
            constructor
            · intro H k tx htx
              match k, htx with
              | 0, htx =>
                have hb : b = tx := by simpa using htx
                subst hb
                exact ⟨by simpa using h1, h2, fun _ => h4⟩
              | k + 1, htx =>
                have := H k tx (by simpa using htx)
                rw [show i0 + 1 + k = i0 + (k + 1) from by omega] at this
                exact this
            · intro H k tx htx
              have := H (k + 1) tx (by simpa using htx)
              rw [show i0 + 1 + k = i0 + (k + 1) from by omega]
              exact this
      · simp only [h2, not_false_eq_true, if_true]
        constructor
        · intro hcontra; cases hcontra
        · intro H
          exact absurd (H 0 b (by simp)).2.1 h2
    · simp only [h1, ne_eq, not_false_eq_true, if_true]
      constructor
      · intro hcontra; cases hcontra
      · intro H
        exact absurd (by simpa using (H 0 b (by simp)).1) h1

/-- C3: `IsValid` returns nil exactly when every transaction has
coherent indices (`CurrentIndex = i`, `LastIndex = len-1`), every input
transaction carries a non-empty signature message fragment, the values
sum to zero, and for each address with inputs the accumulated signature
fragments verify against the bundle hash. -/
theorem isValid_ok_iff (E : CryptoEnv) (bundle : Bundle) :
    Bundle.IsValid E bundle = .ok () ↔
      ((∀ i tx, bundle[i]? = some tx →
          tx.CurrentIndex = Int.ofNat i ∧
          tx.LastIndex = Int.ofNat bundle.length - 1 ∧
          (tx.Value < 0 → isEmptyTrytes tx.SignatureMessageFragment = false)) ∧
       totalValue bundle = 0 ∧
       (∀ addr ∈ inputAddresses bundle,
         E.isValidSig addr (sigFragsFor addr bundle) (Bundle.Hash E bundle) = true)) := by
  have hic := indexChecks_none_iff (Int.ofNat bundle.length - 1) bundle 0
  simp only [Nat.zero_add] at hic
  unfold Bundle.IsValid
  cases h : indexChecks (Int.ofNat bundle.length - 1) 0 bundle with
  | some e =>
    simp only []
    constructor
    · intro hcontra; cases hcontra
    · intro ⟨h1, _, _⟩
      have : indexChecks (Int.ofNat bundle.length - 1) 0 bundle = none := hic.mpr h1
      rw [h] at this
      cases this
  | none =>
    have hidx := hic.mp h
    by_cases ht : totalValue bundle = 0
    · rw [if_neg (by simp [ht])]
      by_cases hs : (inputAddresses bundle).all
          (fun addr => E.isValidSig addr (sigFragsFor addr bundle) (Bundle.Hash E bundle)) = true
      · rw [if_pos hs]
        exact ⟨fun _ => ⟨hidx, ht, fun addr ha => List.all_eq_true.mp hs addr ha⟩,
          fun _ => rfl⟩
      · rw [if_neg hs]
        constructor
        · intro hcontra; cases hcontra
        · intro ⟨_, _, hall⟩
          exact absurd (List.all_eq_true.mpr hall) hs
    · rw [if_pos ht]
      constructor
      · intro hcontra; cases hcontra
      · intro ⟨_, ht', _⟩
        exact absurd ht' ht

theorem isValidTryte_valueToTryte (a b c : Int) (ha : isTrit a) (hb : isTrit b)
    (hc : isTrit c) : isValidTryte (valueToTryte (a + 3 * b + 9 * c)) = true := by
  rcases ha with rfl | rfl | rfl <;> rcases hb with rfl | rfl | rfl <;>
    rcases hc with rfl | rfl | rfl <;> decide

theorem tritsToTrytes_all_valid : ∀ v : Trits, (∀ x ∈ v, isTrit x) →
    (tritsToTrytes v).all isValidTryte = true
  | [], _ => rfl
  | [_], _ => rfl
  | [_, _], _ => rfl
  | a :: b :: c :: rest, hv => by
    have : tritsToTrytes (a :: b :: c :: rest) =
        valueToTryte (a + 3 * b + 9 * c) :: tritsToTrytes rest := by
      simp [tritsToTrytes]
    rw [this, List.all_cons,
      isValidTryte_valueToTryte a b c (hv a (by simp)) (hv b (by simp)) (hv c (by simp)),
      tritsToTrytes_all_valid rest (fun x hx => hv x (by simp [hx]))]
    rfl

theorem toAddress_ok_81 (E : CryptoEnv) (a : Trytes) (hlen : a.length = 81)
    (hval : a.all isValidTryte = true) : ToAddress E a = .ok a := by
  unfold ToAddress
  have h90 : ¬ a.length = 90 := by omega
  simp only [h90, if_false]
  unfold AddressIsValid
  rw [if_pos hlen, if_pos hval]

theorem parseTransaction_ok (E : CryptoEnv) (t : Trytes)
    (_h1 : t.all isValidTryte = true) (h2 : t.length = 2673) :
    parseTransaction E (trytesToTrits t) = .ok
      { SignatureMessageFragment :=
          tritsToTrytes ((trytesToTrits t).take SignatureMessageFragmentTrinarySize)
        Address := tritsToTrytes
          (((trytesToTrits t).drop AddressTrinaryOffset).take AddressTrinarySize)
        Value := tritsToInt (((trytesToTrits t).drop ValueTrinaryOffset).take ValueTrinarySize)
        ObsoleteTag := tritsToTrytes
          (((trytesToTrits t).drop ObsoleteTagTrinaryOffset).take ObsoleteTagTrinarySize)
        Timestamp := tritsToInt
          (((trytesToTrits t).drop TimestampTrinaryOffset).take TimestampTrinarySize)
        CurrentIndex := tritsToInt
          (((trytesToTrits t).drop CurrentIndexTrinaryOffset).take CurrentIndexTrinarySize)
        LastIndex := tritsToInt
          (((trytesToTrits t).drop LastIndexTrinaryOffset).take LastIndexTrinarySize)
        Bundle := tritsToTrytes
          (((trytesToTrits t).drop BundleTrinaryOffset).take BundleTrinarySize)
        TrunkTransaction := tritsToTrytes
          (((trytesToTrits t).drop TrunkTransactionTrinaryOffset).take TrunkTransactionTrinarySize)
        BranchTransaction := tritsToTrytes
          (((trytesToTrits t).drop BranchTransactionTrinaryOffset).take BranchTransactionTrinarySize)
        Tag := tritsToTrytes (((trytesToTrits t).drop TagTrinaryOffset).take TagTrinarySize)
        AttachmentTimestamp := tritsToTrytes
          (((trytesToTrits t).drop AttachmentTimestampTrinaryOffset).take AttachmentTimestampTrinarySize)
        AttachmentTimestampLowerBound := tritsToTrytes
          (((trytesToTrits t).drop AttachmentTimestampLowerBoundTrinaryOffset).take
            AttachmentTimestampLowerBoundTrinarySize)
        AttachmentTimestampUpperBound := tritsToTrytes
          (((trytesToTrits t).drop AttachmentTimestampUpperBoundTrinaryOffset).take
            AttachmentTimestampUpperBoundTrinarySize)
        Nonce := tritsToTrytes
          (((trytesToTrits t).drop NonceTrinaryOffset).take NonceTrinarySize) } := by
  have htl : (trytesToTrits t).length = 8019 := by
    rw [trytesToTrits_length, h2]
  have hslice : (((trytesToTrits t).drop AddressTrinaryOffset).take AddressTrinarySize).length
      = 243 := by
    simp [htl]
    rfl
  have hsub : ∀ x ∈ ((trytesToTrits t).drop AddressTrinaryOffset).take AddressTrinarySize,
      isTrit x := by
    intro x hx
    exact trytesToTrits_isTrit t x (List.drop_subset _ _ (List.take_subset _ _ hx))
  have haddr : ToAddress E (tritsToTrytes
      (((trytesToTrits t).drop AddressTrinaryOffset).take AddressTrinarySize)) =
      .ok (tritsToTrytes (((trytesToTrits t).drop AddressTrinaryOffset).take AddressTrinarySize)) := by
    apply toAddress_ok_81
    · rw [tritsToTrytes_length, hslice]
    · exact tritsToTrytes_all_valid _ hsub
  unfold parseTransaction
  rw [haddr]

theorem checkTransaction_ok_iff (t : Trytes) :
    checkTransaction t = .ok () ↔
      (t.all isValidTryte = true ∧ t.length = 2673 ∧
        (t.drop 2279).take 16 = List.replicate 16 '9') := by
  unfold checkTransaction
  by_cases h1 : t.all isValidTryte = true
  · rw [if_neg (by simp [h1])]
    by_cases h2 : t.length = TransactionTrinarySize / 3
    · rw [if_neg (by simp [h2])]
      by_cases h3 : (t.drop 2279).take 16 = List.replicate 16 '9'
      · rw [if_neg (by simp [h3])]
        have hlen : t.length = 2673 := by simpa [TransactionTrinarySize] using h2
        exact ⟨fun _ => ⟨h1, hlen, h3⟩, fun _ => rfl⟩
      · rw [if_pos h3]
        constructor
        · intro hcontra; cases hcontra
        · intro ⟨_, _, h3'⟩
          exact absurd h3' h3
    · rw [if_pos (by simp [h2])]
      constructor
      · intro hcontra; cases hcontra
      · intro ⟨_, h2', _⟩
        exact absurd (by simpa [TransactionTrinarySize] using h2') h2
  · rw [if_pos (by simp [h1])]
    constructor
    · intro hcontra; cases hcontra
    · intro ⟨h1', _, _⟩
      exact absurd h1' h1

/-- C5: `NewTransaction` succeeds exactly on inputs over the tryte
alphabet of length 2673 whose 16 trytes at [2279, 2295) are all `9`;
on any other input it returns an error. -/
theorem newTransaction_ok_iff (E : CryptoEnv) (t : Trytes) :
    (∃ tx, NewTransaction E t = .ok tx) ↔
      (t.all isValidTryte = true ∧ t.length = 2673 ∧
        (t.drop 2279).take 16 = List.replicate 16 '9') := by
  constructor
  · intro ⟨tx, hok⟩
    unfold NewTransaction at hok
    cases hchk : checkTransaction t with
    | error e => rw [hchk] at hok; cases hok
    | ok u => exact (checkTransaction_ok_iff t).mp (by cases u; exact hchk)
  · intro ⟨h1, h2, h3⟩
    unfold NewTransaction
    rw [(checkTransaction_ok_iff t).mpr ⟨h1, h2, h3⟩]
    rw [parseTransaction_ok E t h1 h2]
    exact ⟨_, rfl⟩

theorem copyAt_step (w : Trits) (L o n o' : Nat) (hw : w.length = L)
    (hon : o + n ≤ L) (ho' : o' = o + n) :
    copyAt (w.take o ++ List.replicate (L - o) 0) o ((w.drop o).take n) =
      w.take o' ++ List.replicate (L - o') 0 := by
  have hdone : (w.take o).length = o := by simp [hw]; omega
  have hsrc : ((w.drop o).take n).length = n := by simp [hw]; omega
  have hrest : ((w.drop o).take n).length ≤ (List.replicate (L - o) (0 : Int)).length := by
    rw [hsrc]; simp; omega
  rw [copyAt_append _ _ _ _ hdone hrest, hsrc, List.drop_replicate, ho',
    show L - (o + n) = L - o - n from by omega, List.take_add w o n]

/-- C9: the transaction codec round-trips — for every 2673-tryte input
over the alphabet whose value-padding trytes [2279, 2295) are all `9`,
`NewTransaction` succeeds and re-serializing the parsed transaction
yields the input back. -/
theorem transaction_roundtrip (E : CryptoEnv) (t : Trytes)
    (h1 : t.all isValidTryte = true) (h2 : t.length = 2673)
    (h3 : (t.drop 2279).take 16 = List.replicate 16 '9') :
    ∃ tx, NewTransaction E t = .ok tx ∧ tx.toTrytes = t := by
  have hw : (trytesToTrits t).length = 8019 := by rw [trytesToTrits_length, h2]
  have htr : ∀ x ∈ trytesToTrits t, isTrit x := trytesToTrits_isTrit t
  set w := trytesToTrits t with hwdef
  have hsl : ∀ o n : Nat, ∀ x ∈ (w.drop o).take n, isTrit x := fun o n x hx =>
    htr x (List.drop_subset _ _ (List.take_subset _ _ hx))
  have slice_len : ∀ o n : Nat, o + n ≤ 8019 → ((w.drop o).take n).length = n := by
    intro o n h
    simp [hw]
    omega
  have eA : ∀ o n : Nat, o + n ≤ 8019 → n % 3 = 0 →
      trytesToTrits (tritsToTrytes ((w.drop o).take n)) = (w.drop o).take n := by
    intro o n hon hn3
    exact trytesToTrits_tritsToTrytes _ (hsl o n) (by rw [slice_len o n hon]; exact hn3)
  have eI : ∀ o n : Nat, o + n ≤ 8019 →
      intToTrits (tritsToInt ((w.drop o).take n)) n = (w.drop o).take n := by
    intro o n hon
    have h := intToTrits_tritsToInt ((w.drop o).take n) (hsl o n)
    rwa [slice_len o n hon] at h
  have eSMF : trytesToTrits (tritsToTrytes (w.take 6561)) = w.take 6561 := by
    have h := eA 0 6561 (by norm_num) (by norm_num)
    simpa using h
  have hok : NewTransaction E t = .ok
      { SignatureMessageFragment := tritsToTrytes (w.take 6561)
        Address := tritsToTrytes ((w.drop 6561).take 243)
        Value := tritsToInt ((w.drop 6804).take 81)
        ObsoleteTag := tritsToTrytes ((w.drop 6885).take 81)
        Timestamp := tritsToInt ((w.drop 6966).take 27)
        CurrentIndex := tritsToInt ((w.drop 6993).take 27)
        LastIndex := tritsToInt ((w.drop 7020).take 27)
        Bundle := tritsToTrytes ((w.drop 7047).take 243)
        TrunkTransaction := tritsToTrytes ((w.drop 7290).take 243)
        BranchTransaction := tritsToTrytes ((w.drop 7533).take 243)
        Tag := tritsToTrytes ((w.drop 7776).take 81)
        AttachmentTimestamp := tritsToTrytes ((w.drop 7857).take 27)
        AttachmentTimestampLowerBound := tritsToTrytes ((w.drop 7884).take 27)
        AttachmentTimestampUpperBound := tritsToTrytes ((w.drop 7911).take 27)
        Nonce := tritsToTrytes ((w.drop 7938).take 81) } := by
    unfold NewTransaction
    rw [(checkTransaction_ok_iff t).mpr ⟨h1, h2, h3⟩]
    exact parseTransaction_ok E t h1 h2
  refine ⟨_, hok, ?_⟩
  simp only [Transaction.toTrytes, TransactionTrinarySize, AddressTrinaryOffset,
    ValueTrinaryOffset, ObsoleteTagTrinaryOffset, TimestampTrinaryOffset,
    CurrentIndexTrinaryOffset, LastIndexTrinaryOffset, BundleTrinaryOffset,
    TrunkTransactionTrinaryOffset, BranchTransactionTrinaryOffset, TagTrinaryOffset,
    AttachmentTimestampTrinaryOffset, AttachmentTimestampLowerBoundTrinaryOffset,
    AttachmentTimestampUpperBoundTrinaryOffset, NonceTrinaryOffset,
    ValueTrinarySize, TimestampTrinarySize, CurrentIndexTrinarySize,
    LastIndexTrinarySize]
  rw [eSMF, eA 6561 243 (by norm_num) (by norm_num), eI 6804 81 (by norm_num),
    eA 6885 81 (by norm_num) (by norm_num), eI 6966 27 (by norm_num),
    eI 6993 27 (by norm_num), eI 7020 27 (by norm_num),
    eA 7047 243 (by norm_num) (by norm_num), eA 7290 243 (by norm_num) (by norm_num),
    eA 7533 243 (by norm_num) (by norm_num), eA 7776 81 (by norm_num) (by norm_num),
    eA 7857 27 (by norm_num) (by norm_num), eA 7884 27 (by norm_num) (by norm_num),
    eA 7911 27 (by norm_num) (by norm_num), eA 7938 81 (by norm_num) (by norm_num)]
  have step0 : copyAt (List.replicate 8019 (0 : Int)) 0 (w.take 6561) =
      w.take 6561 ++ List.replicate (8019 - 6561) 0 := by
    have e1 : (List.replicate 8019 (0 : Int)) = w.take 0 ++ List.replicate (8019 - 0) 0 := by
      rw [List.take_zero, List.nil_append]
    have e2 : w.take 6561 = (w.drop 0).take 6561 := by rw [List.drop_zero]
    rw [e1]
    conv_lhs => rw [e2]
    exact copyAt_step w 8019 0 6561 6561 hw (by norm_num) (by norm_num)
  rw [step0,
    copyAt_step w 8019 6561 243 6804 hw (by norm_num) (by norm_num),
    copyAt_step w 8019 6804 81 6885 hw (by norm_num) (by norm_num),
    copyAt_step w 8019 6885 81 6966 hw (by norm_num) (by norm_num),
    copyAt_step w 8019 6966 27 6993 hw (by norm_num) (by norm_num),
    copyAt_step w 8019 6993 27 7020 hw (by norm_num) (by norm_num),
    copyAt_step w 8019 7020 27 7047 hw (by norm_num) (by norm_num),
    copyAt_step w 8019 7047 243 7290 hw (by norm_num) (by norm_num),
    copyAt_step w 8019 7290 243 7533 hw (by norm_num) (by norm_num),
    copyAt_step w 8019 7533 243 7776 hw (by norm_num) (by norm_num),
    copyAt_step w 8019 7776 81 7857 hw (by norm_num) (by norm_num),
    copyAt_step w 8019 7857 27 7884 hw (by norm_num) (by norm_num),
    copyAt_step w 8019 7884 27 7911 hw (by norm_num) (by norm_num),
    copyAt_step w 8019 7911 27 7938 hw (by norm_num) (by norm_num),
    copyAt_step w 8019 7938 81 8019 hw (by norm_num) (by norm_num)]
  have hfin : w.take 8019 ++ List.replicate (8019 - 8019) (0 : Int) = w := by
    simp [List.take_of_length_le (by omega : w.length ≤ 8019)]
  rw [hfin, hwdef, tritsToTrytes_trytesToTrits t h1]

set_option maxRecDepth 100000 in
/-- Witness for C9: the all-`9` 2673-tryte transaction. -/
theorem transaction_roundtrip_witness :
    ((List.replicate 2673 '9').all isValidTryte = true ∧
     (List.replicate 2673 '9').length = 2673 ∧
     ((List.replicate 2673 '9').drop 2279).take 16 = List.replicate 16 '9') ∧
    (∃ tx, NewTransaction zeroEnv (List.replicate 2673 '9') = .ok tx ∧
      tx.toTrytes = List.replicate 2673 '9') :=
  ⟨⟨by decide, by simp, by simp⟩,
    transaction_roundtrip zeroEnv (List.replicate 2673 '9')
      (by decide) (by simp) (by simp)⟩

/-! ## Lemmas for SignInputs (C7) -/

theorem updateSMF_getElem? : ∀ (l : Bundle) (i : Nat) (s : Trytes) (p : Nat),
    (updateSMF l i s)[p]? = if p = i then
      (l[i]?).map (fun b => { b with SignatureMessageFragment := s })
    else l[p]? := by
  intro l
  induction l with
  | nil => intro i s p; simp [updateSMF]
  | cons b rest ih =>
    intro i s p
    match i, p with
    | 0, 0 => simp [updateSMF]
    | 0, q + 1 => simp [updateSMF]
    | i' + 1, 0 => simp [updateSMF]
    | i' + 1, q + 1 =>
      simp only [updateSMF, List.getElem?_cons_succ]
      rw [ih i' s q]
      by_cases h : q = i'
      · simp [h]
      · simp [h, fun hc : q + 1 = i' + 1 => h (by omega)]

theorem updateSMF_length : ∀ (l : Bundle) (i : Nat) (s : Trytes),
    (updateSMF l i s).length = l.length := by
  intro l
  induction l with
  | nil => intro i s; rfl
  | cons b rest ih =>
    intro i s
    match i with
    | 0 => simp [updateSMF]
    | i' + 1 => simp [updateSMF, ih]

theorem foldOpt_append (f : β → α → Option β) : ∀ (xs ys : List α) (b : β),
    foldOpt f b (xs ++ ys) =
      match foldOpt f b xs with
      | none => none
      | some c => foldOpt f c ys := by
  intro xs
  induction xs with
  | nil => intro ys b; rfl
  | cons x rest ih =>
    intro ys b
    simp only [List.cons_append, foldOpt]
    cases f b x with
    | none => rfl
    | some c => exact ih ys c

theorem getElem?_some_lt {l : List α} {i : Nat} {a : α} (h : l[i]? = some a) :
    i < l.length := by
  by_contra hc
  rw [List.getElem?_eq_none (by omega)] at h
  cases h

theorem signContStep_elim (E : CryptoEnv) (nh : List Int) (key : Trytes) (i : Nat)
    (cur cur' : Bundle) (j : Nat) (h : signContStep E nh key i cur j = some cur') :
    ∃ bi bij, cur[i]? = some bi ∧ cur[i + j]? = some bij ∧
      cur' = if bij.Address = bi.Address ∧ bij.Value = 0 then
        updateSMF cur (i + j)
          (E.sign ((nh.drop ((j % 3) * 27)).take 27) ((key.drop (2187 * j)).take 2187))
      else cur := by
  unfold signContStep at h
  cases hbi : cur[i]? with
  | none => rw [hbi] at h; cases hbij : cur[i + j]? <;> rw [hbij] at h <;> cases h
  | some bi =>
    cases hbij : cur[i + j]? with
    | none => rw [hbi, hbij] at h; cases h
    | some bij =>
      rw [hbi, hbij] at h
      have h' : (if bij.Address = bi.Address ∧ bij.Value = 0 then
          some (updateSMF cur (i + j) (E.sign ((nh.drop ((j % 3) * 27)).take 27)
            ((key.drop (2187 * j)).take 2187)))
        else some cur) = some cur' := h
      refine ⟨bi, bij, rfl, rfl, ?_⟩
      by_cases hc : bij.Address = bi.Address ∧ bij.Value = 0
      · rw [if_pos hc]
        rw [if_pos hc] at h'
        simpa using h'.symm
      · rw [if_neg hc]
        rw [if_neg hc] at h'
        simpa using h'.symm

theorem signContStep_other (E : CryptoEnv) (nh : List Int) (key : Trytes) (i : Nat)
    (cur cur' : Bundle) (j : Nat) (h : signContStep E nh key i cur j = some cur')
    (p : Nat) (hp : p ≠ i + j) : cur'[p]? = cur[p]? := by
  obtain ⟨bi, bij, _, _, hcur'⟩ := signContStep_elim E nh key i cur cur' j h
  rw [hcur']
  split
  · rw [updateSMF_getElem?, if_neg hp]
  · rfl

theorem signContStep_addrValue (E : CryptoEnv) (nh : List Int) (key : Trytes) (i : Nat)
    (cur cur' : Bundle) (j : Nat) (h : signContStep E nh key i cur j = some cur')
    (p : Nat) :
    (cur'[p]?).map (fun b => (b.Address, b.Value)) =
      (cur[p]?).map (fun b => (b.Address, b.Value)) := by
  obtain ⟨bi, bij, _, _, hcur'⟩ := signContStep_elim E nh key i cur cur' j h
  rw [hcur']
  split
  · rw [updateSMF_getElem?]
    by_cases hp : p = i + j
    · simp only [hp, if_true]
      cases cur[i + j]? <;> simp
    · rw [if_neg hp]
  · rfl

theorem signContStep_length (E : CryptoEnv) (nh : List Int) (key : Trytes) (i : Nat)
    (cur cur' : Bundle) (j : Nat) (h : signContStep E nh key i cur j = some cur') :
    cur'.length = cur.length := by
  obtain ⟨bi, bij, _, _, hcur'⟩ := signContStep_elim E nh key i cur cur' j h
  rw [hcur']
  split
  · rw [updateSMF_length]
  · rfl

theorem foldOpt_getElem?_pres {f : Bundle → α → Option Bundle} {g : Transaction → γ}
    (hf : ∀ cur x cur', f cur x = some cur' →
      ∀ p : Nat, (cur'[p]?).map g = (cur[p]?).map g) :
    ∀ (js : List α) (cur cur' : Bundle), foldOpt f cur js = some cur' →
      ∀ p : Nat, (cur'[p]?).map g = (cur[p]?).map g := by
  intro js
  induction js with
  | nil =>
    intro cur cur' h p
    simp only [foldOpt, Option.some.injEq] at h
    rw [h]
  | cons x rest ih =>
    intro cur cur' h p
    simp only [foldOpt] at h
    cases hx : f cur x with
    | none => rw [hx] at h; cases h
    | some cur₁ =>
      rw [hx] at h
      rw [ih cur₁ cur' h p, hf cur x cur₁ hx p]

theorem foldOpt_length_pres {f : Bundle → α → Option Bundle}
    (hf : ∀ cur x cur', f cur x = some cur' → cur'.length = cur.length) :
    ∀ (js : List α) (cur cur' : Bundle), foldOpt f cur js = some cur' →
      cur'.length = cur.length := by
  intro js
  induction js with
  | nil =>
    intro cur cur' h
    simp only [foldOpt, Option.some.injEq] at h
    rw [h]
  | cons x rest ih =>
    intro cur cur' h
    simp only [foldOpt] at h
    cases hx : f cur x with
    | none => rw [hx] at h; cases h
    | some cur₁ =>
      rw [hx] at h
      rw [ih cur₁ cur' h, hf cur x cur₁ hx]

theorem contFold_out (E : CryptoEnv) (nh : List Int) (key : Trytes) (i : Nat) :
    ∀ (js : List Nat) (cur cur' : Bundle),
      foldOpt (signContStep E nh key i) cur js = some cur' →
      ∀ p : Nat, (∀ j ∈ js, i + j ≠ p) → cur'[p]? = cur[p]? := by
  intro js
  induction js with
  | nil =>
    intro cur cur' h p _
    simp only [foldOpt, Option.some.injEq] at h
    rw [h]
  | cons j₀ rest ih =>
    intro cur cur' h p hp
    simp only [foldOpt] at h
    cases hx : signContStep E nh key i cur j₀ with
    | none => rw [hx] at h; cases h
    | some cur₁ =>
      rw [hx] at h
      rw [ih cur₁ cur' h p (fun j hj => hp j (by simp [hj])),
        signContStep_other E nh key i cur cur₁ j₀ hx p (fun hc => hp j₀ (by simp) hc.symm)]

theorem contFold_written (E : CryptoEnv) (nh : List Int) (key : Trytes) (i : Nat) :
    ∀ (js : List Nat), js.Nodup →
      ∀ (cur cur' : Bundle), foldOpt (signContStep E nh key i) cur js = some cur' →
      ∀ j ∈ js, ∀ bi bij, cur[i]? = some bi → cur[i + j]? = some bij →
        bij.Address = bi.Address → bij.Value = 0 →
        cur'[i + j]? = some (withSMF bij
          (E.sign ((nh.drop ((j % 3) * 27)).take 27) ((key.drop (2187 * j)).take 2187))) := by
  intro js
  induction js with
  | nil => intro _ cur cur' _ j hj; cases hj
  | cons j₀ rest ih =>
    intro hnd cur cur' h j hj bi bij hbi hbij haddr hval
    simp only [foldOpt] at h
    cases hx : signContStep E nh key i cur j₀ with
    | none => rw [hx] at h; cases h
    | some cur₁ =>
      rw [hx] at h
      rcases List.mem_cons.mp hj with rfl | hjrest
      · obtain ⟨bi₀, bij₀, hbi₀, hbij₀, hcur₁⟩ := signContStep_elim E nh key i cur cur₁ j hx
        have hbieq : bi₀ = bi := by rw [hbi₀] at hbi; exact Option.some.inj hbi
        have hbijeq : bij₀ = bij := by rw [hbij₀] at hbij; exact Option.some.inj hbij
        rw [hbieq] at hcur₁ hbi₀
        rw [hbijeq] at hcur₁ hbij₀
        rw [if_pos ⟨haddr, hval⟩] at hcur₁
        have h₁ : cur₁[i + j]? = some (withSMF bij
            (E.sign ((nh.drop ((j % 3) * 27)).take 27) ((key.drop (2187 * j)).take 2187))) := by
          rw [hcur₁, updateSMF_getElem?, if_pos rfl, hbij₀]
          rfl
        have hstable : cur'[i + j]? = cur₁[i + j]? := by
          apply contFold_out E nh key i rest cur₁ cur' h
          intro j' hj' hc
          have hjj : j' = j := by omega
          subst hjj
          exact (List.nodup_cons.mp hnd).1 hj'
        rw [hstable, h₁]
      · have hbij₁ : cur₁[i + j]? = some bij := by
          have hne : (i + j) ≠ i + j₀ := by
            intro hc
            have hjj : j = j₀ := by omega
            exact (List.nodup_cons.mp hnd).1 (hjj ▸ hjrest)
          rw [signContStep_other E nh key i cur cur₁ j₀ hx (i + j) hne, hbij]
        obtain ⟨bi', hbi', haddr'⟩ : ∃ bi', cur₁[i]? = some bi' ∧ bi'.Address = bi.Address := by
          have hav := signContStep_addrValue E nh key i cur cur₁ j₀ hx i
          rw [hbi] at hav
          cases hbi' : cur₁[i]? with
          | none => rw [hbi'] at hav; cases hav
          | some bi' =>
            rw [hbi'] at hav
            refine ⟨bi', rfl, ?_⟩
            have hfst := congrArg (fun o => Option.map Prod.fst o) hav
            simpa using hfst
        exact ih (List.nodup_cons.mp hnd).2 cur₁ cur' h j hjrest bi' bij hbi' hbij₁
          (by rw [haddr, ← haddr']) hval

theorem signStep_cases (E : CryptoEnv) (inputs : List AddressInfo) (nh : List Int)
    (cur cur' : Bundle) (i : Nat) (b : Transaction) (hb : cur[i]? = some b)
    (h : signStep E inputs nh cur i = some cur') :
    (0 ≤ b.Value ∧ cur' = cur) ∨
    (b.Value < 0 ∧
      foldOpt (signContStep E nh ((matchingInfo E inputs b).Key E) i)
        (updateSMF cur i (E.sign (nh.take 27) (((matchingInfo E inputs b).Key E).take 2187)))
        (List.range' 1 ((matchingInfo E inputs b).Security - 1).toNat) = some cur') := by
  unfold signStep at h
  rw [hb] at h
  have h' : (if b.Value ≥ 0 then some cur
      else foldOpt (signContStep E nh ((matchingInfo E inputs b).Key E) i)
        (updateSMF cur i (E.sign (nh.take 27) (((matchingInfo E inputs b).Key E).take 2187)))
        (List.range' 1 ((matchingInfo E inputs b).Security - 1).toNat)) = some cur' := h
  by_cases hv : b.Value ≥ 0
  · rw [if_pos hv] at h'
    exact Or.inl ⟨hv, (Option.some.inj h').symm⟩
  · rw [if_neg hv] at h'
    exact Or.inr ⟨by omega, h'⟩

theorem signStep_other (E : CryptoEnv) (inputs : List AddressInfo) (nh : List Int)
    (cur cur' : Bundle) (i : Nat) (h : signStep E inputs nh cur i = some cur')
    (p : Nat) (hp : p < i ∨ ∃ b, cur[i]? = some b ∧ 0 ≤ b.Value) :
    cur'[p]? = cur[p]? := by
  cases hb : cur[i]? with
  | none => unfold signStep at h; rw [hb] at h; cases h
  | some b =>
    rcases signStep_cases E inputs nh cur cur' i b hb h with ⟨_, rfl⟩ | ⟨hneg, hfold⟩
    · rfl
    · have hpi : p < i := by
        rcases hp with hpi | ⟨b', hb', hge⟩
        · exact hpi
        · rw [hb] at hb'
          have hbe := Option.some.inj hb'
          rw [← hbe] at hge
          omega
      rw [contFold_out E nh _ i _ _ _ hfold p ?_, updateSMF_getElem?, if_neg (by omega)]
      intro j hj
      have := List.mem_range'.mp hj
      omega

theorem signStep_addrValue (E : CryptoEnv) (inputs : List AddressInfo) (nh : List Int)
    (cur cur' : Bundle) (i : Nat) (h : signStep E inputs nh cur i = some cur')
    (p : Nat) :
    (cur'[p]?).map (fun b => (b.Address, b.Value)) =
      (cur[p]?).map (fun b => (b.Address, b.Value)) := by
  cases hb : cur[i]? with
  | none => unfold signStep at h; rw [hb] at h; cases h
  | some b =>
    rcases signStep_cases E inputs nh cur cur' i b hb h with ⟨_, rfl⟩ | ⟨hneg, hfold⟩
    · rfl
    · rw [foldOpt_getElem?_pres
        (fun cur x cur' hx p => signContStep_addrValue E nh _ i cur cur' x hx p)
        _ _ _ hfold p, updateSMF_getElem?]
      by_cases hp : p = i
      · subst hp
        rw [if_pos rfl]
        cases cur[p]? <;> simp
      · rw [if_neg hp]

theorem signStep_length (E : CryptoEnv) (inputs : List AddressInfo) (nh : List Int)
    (cur cur' : Bundle) (i : Nat) (h : signStep E inputs nh cur i = some cur') :
    cur'.length = cur.length := by
  cases hb : cur[i]? with
  | none => unfold signStep at h; rw [hb] at h; cases h
  | some b =>
    rcases signStep_cases E inputs nh cur cur' i b hb h with ⟨_, rfl⟩ | ⟨hneg, hfold⟩
    · rfl
    · rw [foldOpt_length_pres
        (fun cur x cur' hx => signContStep_length E nh _ i cur cur' x hx)
        _ _ _ hfold, updateSMF_length]

theorem signStep_input (E : CryptoEnv) (inputs : List AddressInfo) (nh : List Int)
    (cur cur' : Bundle) (i : Nat) (b : Transaction) (hb : cur[i]? = some b)
    (hneg : b.Value < 0) (h : signStep E inputs nh cur i = some cur') :
    cur'[i]? = some (withSMF b
      (E.sign (nh.take 27) (((matchingInfo E inputs b).Key E).take 2187))) ∧
    ∀ j : Nat, 1 ≤ j → (j : Int) < (matchingInfo E inputs b).Security →
      ∀ bij, cur[i + j]? = some bij → bij.Address = b.Address → bij.Value = 0 →
      cur'[i + j]? = some (withSMF bij
        (E.sign ((nh.drop ((j % 3) * 27)).take 27)
          (((matchingInfo E inputs b).Key E).drop (2187 * j) |>.take 2187))) := by
  rcases signStep_cases E inputs nh cur cur' i b hb h with ⟨hge, _⟩ | ⟨_, hfold⟩
  · omega
  · constructor
    · rw [contFold_out E nh _ i _ _ _ hfold i ?_, updateSMF_getElem?, if_pos rfl, hb]
      · rfl
      · intro j hj
        have := List.mem_range'.mp hj
        omega
    · intro j hj1 hjsec bij hbij haddr hval
      have hjmem : j ∈ List.range' 1 ((matchingInfo E inputs b).Security - 1).toNat := by
        rw [List.mem_range']
        refine ⟨j - 1, by omega, by omega⟩
      have hb1 : (updateSMF cur i (E.sign (nh.take 27)
          (((matchingInfo E inputs b).Key E).take 2187)))[i]? = some (withSMF b
          (E.sign (nh.take 27) (((matchingInfo E inputs b).Key E).take 2187))) := by
        rw [updateSMF_getElem?, if_pos rfl, hb]
        rfl
      have hbij1 : (updateSMF cur i (E.sign (nh.take 27)
          (((matchingInfo E inputs b).Key E).take 2187)))[i + j]? = some bij := by
        rw [updateSMF_getElem?, if_neg (by omega), hbij]
      exact contFold_written E nh _ i _ (List.nodup_range' _ _) _ _ hfold j hjmem _ bij
        hb1 hbij1 (by simp [withSMF, haddr]) hval

theorem signContStep_neg (E : CryptoEnv) (nh : List Int) (key : Trytes) (i : Nat)
    (cur cur' : Bundle) (j : Nat) (h : signContStep E nh key i cur j = some cur')
    (p : Nat) (b : Transaction) (hb : cur[p]? = some b) (hneg : b.Value < 0) :
    cur'[p]? = cur[p]? := by
  by_cases hp : p = i + j
  · subst hp
    obtain ⟨bi, bij, hbi, hbij, hcur'⟩ := signContStep_elim E nh key i cur cur' j h
    have hbe : bij = b := by rw [hbij] at hb; exact Option.some.inj hb
    rw [hcur', if_neg (fun hc => by rw [hbe] at hc; omega)]
  · exact signContStep_other E nh key i cur cur' j h p hp

theorem contFold_neg (E : CryptoEnv) (nh : List Int) (key : Trytes) (i : Nat) :
    ∀ (js : List Nat) (cur cur' : Bundle),
      foldOpt (signContStep E nh key i) cur js = some cur' →
      ∀ (p : Nat) (b : Transaction), cur[p]? = some b → b.Value < 0 →
      cur'[p]? = cur[p]? := by
  intro js
  induction js with
  | nil =>
    intro cur cur' h p b _ _
    simp only [foldOpt, Option.some.injEq] at h
    rw [h]
  | cons j₀ rest ih =>
    intro cur cur' h p b hb hneg
    simp only [foldOpt] at h
    cases hx : signContStep E nh key i cur j₀ with
    | none => rw [hx] at h; cases h
    | some cur₁ =>
      rw [hx] at h
      have hstep : cur₁[p]? = cur[p]? := signContStep_neg E nh key i cur cur₁ j₀ hx p b hb hneg
      rw [← hstep]
      exact ih cur₁ cur' h p b (by rw [hstep, hb]) hneg

theorem signStep_neg (E : CryptoEnv) (inputs : List AddressInfo) (nh : List Int)
    (cur cur' : Bundle) (i : Nat) (h : signStep E inputs nh cur i = some cur')
    (p : Nat) (hip : i ≠ p) (b : Transaction) (hb : cur[p]? = some b)
    (hneg : b.Value < 0) : cur'[p]? = cur[p]? := by
  cases hbi : cur[i]? with
  | none => unfold signStep at h; rw [hbi] at h; cases h
  | some bi =>
    rcases signStep_cases E inputs nh cur cur' i bi hbi h with ⟨_, rfl⟩ | ⟨_, hfold⟩
    · rfl
    · have h1 : (updateSMF cur i (E.sign (nh.take 27)
          (((matchingInfo E inputs bi).Key E).take 2187)))[p]? = cur[p]? := by
        rw [updateSMF_getElem?, if_neg (fun hc => hip hc.symm)]
      rw [← h1]
      exact contFold_neg E nh _ i _ _ _ hfold p b (by rw [h1, hb]) hneg

theorem signFold_neg (E : CryptoEnv) (inputs : List AddressInfo) (nh : List Int) :
    ∀ (js : List Nat) (cur cur' : Bundle),
      foldOpt (signStep E inputs nh) cur js = some cur' →
      ∀ (p : Nat), (∀ i' ∈ js, i' ≠ p) →
      ∀ (b : Transaction), cur[p]? = some b → b.Value < 0 →
      cur'[p]? = cur[p]? := by
  intro js
  induction js with
  | nil =>
    intro cur cur' h p _ b _ _
    simp only [foldOpt, Option.some.injEq] at h
    rw [h]
  | cons i₀ rest ih =>
    intro cur cur' h p hcond b hb hneg
    simp only [foldOpt] at h
    cases hx : signStep E inputs nh cur i₀ with
    | none => rw [hx] at h; cases h
    | some cur₁ =>
      rw [hx] at h
      have hstep : cur₁[p]? = cur[p]? :=
        signStep_neg E inputs nh cur cur₁ i₀ hx p (hcond i₀ (by simp)) b hb hneg
      rw [← hstep]
      exact ih cur₁ cur' h p (fun i' hi' => hcond i' (by simp [hi']))
        b (by rw [hstep, hb]) hneg

theorem signFold_other (E : CryptoEnv) (inputs : List AddressInfo) (nh : List Int) :
    ∀ (js : List Nat) (cur cur' : Bundle) (p : Nat),
      foldOpt (signStep E inputs nh) cur js = some cur' →
      (∀ i' ∈ js, p < i' ∨ ∃ b, cur[i']? = some b ∧ 0 ≤ b.Value) →
      cur'[p]? = cur[p]? := by
  intro js
  induction js with
  | nil =>
    intro cur cur' p h _
    simp only [foldOpt, Option.some.injEq] at h
    rw [h]
  | cons i₀ rest ih =>
    intro cur cur' p h hcond
    simp only [foldOpt] at h
    cases hx : signStep E inputs nh cur i₀ with
    | none => rw [hx] at h; cases h
    | some cur₁ =>
      rw [hx] at h
      have hstep : cur₁[p]? = cur[p]? :=
        signStep_other E inputs nh cur cur₁ i₀ hx p (hcond i₀ (by simp))
      rw [← hstep]
      apply ih cur₁ cur' p h
      intro i' hi'
      rcases hcond i' (by simp [hi']) with hlt | ⟨b, hbv, hge⟩
      · exact Or.inl hlt
      · right
        have hav := signStep_addrValue E inputs nh cur cur₁ i₀ hx i'
        rw [hbv] at hav
        cases hb' : cur₁[i']? with
        | none => rw [hb'] at hav; cases hav
        | some b' =>
          rw [hb'] at hav
          refine ⟨b', rfl, ?_⟩
          have hsnd := congrArg (fun o => Option.map Prod.snd o) hav
          simp only [Option.map_map, Option.map_some] at hsnd
          have : b'.Value = b.Value := by simpa using hsnd
          omega

/-- C7: after `SignInputs` on a bundle whose input regions are disjoint,
every input transaction at position `i` carries the signature of
normalized-hash chunk 0 under key fragment 0 of the key derived from
its matching `AddressInfo` (seed, index, security), and for
`j = 1 .. security-1` the transaction at `i + j` — when it has the same
address and value 0 — carries the signature of chunk `(j mod 3)` under
key fragment `j`. -/
theorem signInputs_spec (E : CryptoEnv) (bundle : Bundle) (inputs : List AddressInfo)
    (b' : Bundle) (hres : Bundle.SignInputs E bundle inputs = some b')
    (hdisj : ∀ i j : Nat, ∀ txi txj, bundle[i]? = some txi → bundle[j]? = some txj →
      txi.Value < 0 → txj.Value < 0 → i < j →
      i + (matchingInfo E inputs txi).Security.toNat ≤ j) :
    b'.length = bundle.length ∧
    ∀ i tx, bundle[i]? = some tx → tx.Value < 0 →
      (b'[i]? = some (withSMF tx (E.sign ((normalize (Bundle.Hash E bundle)).take 27)
        (((matchingInfo E inputs tx).Key E).take 2187)))) ∧
      (∀ j : Nat, 1 ≤ j → (j : Int) < (matchingInfo E inputs tx).Security →
        ∀ txj tx'j, bundle[i + j]? = some txj → b'[i + j]? = some tx'j →
        txj.Address = tx.Address → txj.Value = 0 →
        tx'j.SignatureMessageFragment =
          E.sign (((normalize (Bundle.Hash E bundle)).drop ((j % 3) * 27)).take 27)
            (((matchingInfo E inputs tx).Key E).drop (2187 * j) |>.take 2187)) := by
  unfold Bundle.SignInputs at hres
  constructor
  · exact foldOpt_length_pres
      (fun cur x cur' hx => signStep_length E inputs _ cur cur' x hx) _ _ _ hres
  · intro i tx htx hneg
    have hilen : i < bundle.length := getElem?_some_lt htx
    have hsplit : List.range bundle.length =
        List.range' 0 i ++ (i :: List.range' (i + 1) (bundle.length - i - 1)) := by
      rw [List.range_eq_range']
      have h1 := List.range'_append 0 i (bundle.length - i) 1
      simp only [Nat.zero_add, Nat.one_mul] at h1
      have h2 : List.range' i (bundle.length - i) =
          i :: List.range' (i + 1) (bundle.length - i - 1) := by
        rw [show bundle.length - i = (bundle.length - i - 1) + 1 from by omega,
          List.range'_succ]
        simp
      nth_rewrite 1 [show bundle.length = (bundle.length - i) + i from by omega]
      rw [← h1, h2]
    rw [hsplit, foldOpt_append] at hres
    cases hA : foldOpt (signStep E inputs (normalize (Bundle.Hash E bundle))) bundle
        (List.range' 0 i) with
    | none => rw [hA] at hres; cases hres
    | some curA =>
      rw [hA] at hres
      simp only [foldOpt] at hres
      cases hstep : signStep E inputs (normalize (Bundle.Hash E bundle)) curA i with
      | none => rw [hstep] at hres; cases hres
      | some curB =>
        rw [hstep] at hres
        have hAval : ∀ p : Nat, (curA[p]?).map (fun b => (b.Address, b.Value)) =
            (bundle[p]?).map (fun b => (b.Address, b.Value)) :=
          foldOpt_getElem?_pres
            (fun cur x cur' hx p => signStep_addrValue E inputs _ cur cur' x hx p)
            _ _ _ hA
        have hBval : ∀ p : Nat, (curB[p]?).map (fun b => (b.Address, b.Value)) =
            (bundle[p]?).map (fun b => (b.Address, b.Value)) := by
          intro p
          rw [signStep_addrValue E inputs _ curA curB i hstep p, hAval p]
        have hbA : curA[i]? = some tx := by
          rw [signFold_neg E inputs _ (List.range' 0 i) bundle curA hA i
            (fun i' hi' => by have := List.mem_range'.mp hi'; omega) tx htx hneg, htx]
        have hinput := signStep_input E inputs _ curA curB i tx hbA hneg hstep
        have hBstable : ∀ p : Nat, p ≤ i ∨
            (∀ i' : Nat, i < i' → i' ≤ p → ∀ txi', bundle[i']? = some txi' → 0 ≤ txi'.Value) →
            b'[p]? = curB[p]? := by
          intro p hp
          apply signFold_other E inputs _ _ _ _ _ hres
          intro i' hi'
          have hi'r := List.mem_range'.mp hi'
          have hi'lt : i < i' := by omega
          by_cases hpi' : p < i'
          · exact Or.inl hpi'
          · right
            have hi'len : i' < bundle.length := by omega
            have hBi' := hBval i'
            rw [List.getElem?_eq_getElem hi'len] at hBi'
            cases hb' : curB[i']? with
            | none => rw [hb'] at hBi'; cases hBi'
            | some b1 =>
              rw [hb'] at hBi'
              simp at hBi'
              refine ⟨b1, rfl, ?_⟩
              rcases hp with hple | hcond
              · omega
              · have := hcond i' hi'lt (by omega) (bundle[i'])
                  (List.getElem?_eq_getElem hi'len)
                omega
        constructor
        · rw [hBstable i (Or.inl (le_refl i)), hinput.1]
        · intro j hj1 hjsec txj tx'j htxj htx'j haddr hval0
          obtain ⟨bAj, hbAj, hbAjaddr, hbAjval⟩ :
              ∃ bAj, curA[i + j]? = some bAj ∧
                bAj.Address = txj.Address ∧ bAj.Value = txj.Value := by
            have hm := hAval (i + j)
            rw [htxj] at hm
            cases hcA : curA[i + j]? with
            | none => rw [hcA] at hm; cases hm
            | some bAj =>
              rw [hcA] at hm
              simp at hm
              exact ⟨bAj, rfl, hm.1, hm.2⟩
          have hcont := hinput.2 j hj1 hjsec bAj hbAj
            (by rw [hbAjaddr, haddr]) (by rw [hbAjval, hval0])
          have hstab : b'[i + j]? = curB[i + j]? := by
            apply hBstable (i + j)
            right
            intro i' hii' hi'p txi' htxi'
            by_contra hc
            have hin : txi'.Value < 0 := by omega
            have hd := hdisj i i' tx txi' htx htxi' hneg hin hii'
            have hsec2 : 1 < (matchingInfo E inputs tx).Security := by omega
            have : j < (matchingInfo E inputs tx).Security.toNat := by omega
            omega
          rw [hstab, hcont] at htx'j
          have hj' := Option.some.inj htx'j
          rw [← hj']
          simp [withSMF]


theorem txInput_hdisj : ∀ i j : Nat, ∀ txi txj, ([txInput] : Bundle)[i]? = some txi →
    ([txInput] : Bundle)[j]? = some txj → txi.Value < 0 → txj.Value < 0 → i < j →
    i + (matchingInfo zeroEnv [] txi).Security.toNat ≤ j := by
  intro i j txi txj hi hj _ _ hij
  have hi1 : i < ([txInput] : Bundle).length := getElem?_some_lt hi
  have hj1 : j < ([txInput] : Bundle).length := getElem?_some_lt hj
  simp only [List.length_cons, List.length_nil] at hi1 hj1
  omega

set_option maxRecDepth 100000 in
/-- Witness for C7: a singleton bundle holding one input transaction,
signed with no matching address infos (the Go zero-value info). -/
theorem signInputs_spec_witness :
    (Bundle.SignInputs zeroEnv [txInput] [] = some [txInput]) ∧
    (∀ i j : Nat, ∀ txi txj, ([txInput] : Bundle)[i]? = some txi →
      ([txInput] : Bundle)[j]? = some txj → txi.Value < 0 → txj.Value < 0 → i < j →
      i + (matchingInfo zeroEnv [] txi).Security.toNat ≤ j) ∧
    (([txInput] : Bundle).length = ([txInput] : Bundle).length ∧
      ∀ i tx, ([txInput] : Bundle)[i]? = some tx → tx.Value < 0 →
        (([txInput] : Bundle)[i]? = some (withSMF tx
          (zeroEnv.sign ((normalize (Bundle.Hash zeroEnv [txInput])).take 27)
            (((matchingInfo zeroEnv [] tx).Key zeroEnv).take 2187)))) ∧
        (∀ j : Nat, 1 ≤ j → (j : Int) < (matchingInfo zeroEnv [] tx).Security →
          ∀ txj tx'j, ([txInput] : Bundle)[i + j]? = some txj →
          ([txInput] : Bundle)[i + j]? = some tx'j →
          txj.Address = tx.Address → txj.Value = 0 →
          tx'j.SignatureMessageFragment =
            zeroEnv.sign (((normalize (Bundle.Hash zeroEnv [txInput])).drop ((j % 3) * 27)).take 27)
              (((matchingInfo zeroEnv [] tx).Key zeroEnv).drop (2187 * j) |>.take 2187))) :=
  ⟨by decide, txInput_hdisj,
    signInputs_spec zeroEnv [txInput] [] [txInput] (by decide) txInput_hdisj⟩

end Giota
